import Mathlib

/-!
Verification of the `gosearch` search-engine core against its specification.

Go strings are byte arrays, so throughout this development a string is a
`List Nat` of byte values; a rune (Unicode code point) is a `Nat`.
-/

set_option maxHeartbeats 1000000
set_option maxRecDepth 8192

/-- Continuation byte test for UTF-8 decoding (`0x80 ≤ b ≤ 0xBF`). -/
def isContByte (b : Nat) : Bool :=
  decide (0x80 ≤ b) && decide (b ≤ 0xBF)

/-- Second-byte acceptance range for a three-byte UTF-8 sequence headed by `b0`,
as in Go's `unicode/utf8` acceptance tables (excludes overlong forms and
surrogates). -/
def cont3ok (b0 b1 : Nat) : Bool :=
  if b0 = 0xE0 then decide (0xA0 ≤ b1) && decide (b1 ≤ 0xBF)
  else if b0 = 0xED then decide (0x80 ≤ b1) && decide (b1 ≤ 0x9F)
  else isContByte b1

/-- Second-byte acceptance range for a four-byte UTF-8 sequence headed by `b0`,
as in Go's `unicode/utf8` acceptance tables. -/
def cont4ok (b0 b1 : Nat) : Bool :=
  if b0 = 0xF0 then decide (0x90 ≤ b1) && decide (b1 ≤ 0xBF)
  else if b0 = 0xF4 then decide (0x80 ≤ b1) && decide (b1 ≤ 0x8F)
  else isContByte b1

/-- UTF-8 encoding of one code point, as Go's `utf8.EncodeRune` produces for
valid scalar values. -/
def utf8EncodeRune (r : Nat) : List Nat :=
  if r < 0x80 then [r]
  else if r < 0x800 then [0xC0 + r / 0x40, 0x80 + r % 0x40]
  else if r < 0x10000 then
    [0xE0 + r / 0x1000, 0x80 + r / 0x40 % 0x40, 0x80 + r % 0x40]
  else
    [0xF0 + r / 0x40000, 0x80 + r / 0x1000 % 0x40, 0x80 + r / 0x40 % 0x40,
      0x80 + r % 0x40]

/-- One step of Go's string iteration at a non-empty position: given the first
byte `b0` and the remaining bytes `t0`, return the runes this position
contributes and the bytes still to decode.  This is `utf8.DecodeRuneInString`:
an invalid byte decodes to `U+FFFD` and consumes one byte, and when a
multi-byte sequence fails midway Go restarts after its first byte, so the
already-consumed continuation bytes each decode to a lone `U+FFFD`, which is
what the multi-`0xFFFD` results below account for. -/
def utf8Step (b0 : Nat) (t0 : List Nat) : List Nat × List Nat :=
  if b0 < 0x80 then ([b0], t0)
  else if decide (0xC2 ≤ b0) && decide (b0 ≤ 0xDF) then
    match t0 with
    | [] => ([0xFFFD], [])
    | b1 :: t1 =>
      if isContByte b1 then ([(b0 - 0xC0) * 0x40 + (b1 - 0x80)], t1)
      else ([0xFFFD], b1 :: t1)
  else if decide (0xE0 ≤ b0) && decide (b0 ≤ 0xEF) then
    match t0 with
    | [] => ([0xFFFD], [])
    | b1 :: t1 =>
      if cont3ok b0 b1 then
        match t1 with
        | [] => ([0xFFFD, 0xFFFD], [])
        | b2 :: t2 =>
          if isContByte b2 then
            ([(b0 - 0xE0) * 0x1000 + (b1 - 0x80) * 0x40 + (b2 - 0x80)], t2)
          else ([0xFFFD, 0xFFFD], b2 :: t2)
      else ([0xFFFD], b1 :: t1)
  else if decide (0xF0 ≤ b0) && decide (b0 ≤ 0xF4) then
    match t0 with
    | [] => ([0xFFFD], [])
    | b1 :: t1 =>
      if cont4ok b0 b1 then
        match t1 with
        | [] => ([0xFFFD, 0xFFFD], [])
        | b2 :: t2 =>
          if isContByte b2 then
            match t2 with
            | [] => ([0xFFFD, 0xFFFD, 0xFFFD], [])
            | b3 :: t3 =>
              if isContByte b3 then
                ([(b0 - 0xF0) * 0x40000 + (b1 - 0x80) * 0x1000 +
                    (b2 - 0x80) * 0x40 + (b3 - 0x80)], t3)
              else ([0xFFFD, 0xFFFD, 0xFFFD], b3 :: t3)
          else ([0xFFFD, 0xFFFD], b2 :: t2)
      else ([0xFFFD], b1 :: t1)
  else ([0xFFFD], t0)

theorem utf8Step_shrinks (b0 : Nat) (t0 : List Nat) :
    (utf8Step b0 t0).2.length ≤ t0.length := by
  unfold utf8Step
  split
  · simp
  split
  · match t0 with
    | [] => simp
    | b1 :: t1 => dsimp only; split <;> simp
  split
  · match t0 with
    | [] => simp
    | b1 :: t1 =>
      try dsimp only
      split
      · match t1 with
        | [] => simp
        | b2 :: t2 => dsimp only; split <;> simp <;> omega
      · simp
  split
  · match t0 with
    | [] => simp
    | b1 :: t1 =>
      try dsimp only
      split
      · match t1 with
        | [] => simp
        | b2 :: t2 =>
          try dsimp only
          split
          · match t2 with
            | [] => simp
            | b3 :: t3 => dsimp only; split <;> simp <;> omega
          · simp
      · simp
  · simp

/-- Fuel-indexed UTF-8 decoding loop; see `utf8Decode`.  Every step consumes at
least one byte, so fuel equal to the byte length is always sufficient
(`utf8DecodeFuel_stable`); the fuel only makes the recursion structural. -/
def utf8DecodeFuel : Nat → List Nat → List Nat
  | 0, _ => []
  | _, [] => []
  | fuel + 1, b0 :: t0 =>
    (utf8Step b0 t0).1 ++ utf8DecodeFuel fuel (utf8Step b0 t0).2

/-- Decode a byte string into the sequence of runes Go sees when it iterates a
string rune by rune (`utf8.DecodeRuneInString` at each position). -/
def utf8Decode (s : List Nat) : List Nat :=
  utf8DecodeFuel s.length s

theorem utf8DecodeFuel_congr :
    ∀ f1 f2 s, List.length s ≤ f1 → List.length s ≤ f2 →
      utf8DecodeFuel f1 s = utf8DecodeFuel f2 s := by
  intro f1
  induction f1 with
  | zero =>
    intro f2 s hs _
    have : s = [] := List.length_eq_zero.mp (Nat.le_zero.mp hs)
    subst this
    cases f2 <;> rfl
  | succ f1 ih =>
    intro f2 s hs1 hs2
    match s with
    | [] => cases f2 <;> rfl
    | b0 :: t0 =>
      match f2 with
      | 0 => exact absurd hs2 (by simp)
      | f2 + 1 =>
        simp only [utf8DecodeFuel]
        have hlen : (utf8Step b0 t0).2.length ≤ t0.length :=
          utf8Step_shrinks b0 t0
        simp only [List.length_cons, Nat.succ_le_succ_iff] at hs1 hs2
        exact congrArg _ (ih f2 _ (Nat.le_trans hlen hs1)
          (Nat.le_trans hlen hs2))

theorem utf8DecodeFuel_stable (fuel : Nat) (s : List Nat)
    (h : List.length s ≤ fuel) : utf8DecodeFuel fuel s = utf8Decode s :=
  utf8DecodeFuel_congr fuel s.length s h (Nat.le_refl _)

theorem utf8Decode_cons (b0 : Nat) (t0 : List Nat) :
    utf8Decode (b0 :: t0) =
      (utf8Step b0 t0).1 ++ utf8Decode (utf8Step b0 t0).2 := by
  show utf8DecodeFuel (t0.length + 1) (b0 :: t0) = _
  simp only [utf8DecodeFuel]
  rw [utf8DecodeFuel_stable t0.length _ (utf8Step_shrinks b0 t0)]

/-- Modelled from the spec: the simple Unicode lowercase mapping used by Go's
`strings.ToLower` (§4.1 "folded to lowercase bytes").  The full Unicode table
lives outside this repository; this model is exact on ASCII and on the code
points U+023A → U+2C65 and U+2C65 exercised in this development, and is the
identity on all other code points (none of which are inspected by any theorem
below). -/
def goToLowerRune (r : Nat) : Nat :=
  if decide (0x41 ≤ r) && decide (r ≤ 0x5A) then r + 0x20
  else if r = 0x23A then 0x2C65
  else r

/-- Modelled from the spec: the simple Unicode uppercase mapping used by Go's
`strings.ToUpper`.  Exact on ASCII and the identity elsewhere; under Go's real
table no non-ASCII code point maps to an ASCII digit, sign, space, or any of
`B`, `K`, `M`, `G`, so every theorem below classifies inputs exactly as Go
does. -/
def goToUpperRune (r : Nat) : Nat :=
  if decide (0x61 ≤ r) && decide (r ≤ 0x7A) then r - 0x20
  else r

/-- Go `strings.ToLower` on a byte string: decode runes (invalid bytes become
`U+FFFD`), map the lowercase table, re-encode.  This is `strings.Map` as Go
implements it, including the replacement of invalid bytes. -/
def goToLower (s : List Nat) : List Nat :=
  (utf8Decode s).flatMap (fun r => utf8EncodeRune (goToLowerRune r))

/-- Go `strings.ToUpper` on a byte string, by the same construction as
`goToLower`. -/
def goToUpper (s : List Nat) : List Nat :=
  (utf8Decode s).flatMap (fun r => utf8EncodeRune (goToUpperRune r))

/-- Every byte of the string is ASCII. -/
def allASCII (s : List Nat) : Bool :=
  s.all (fun b => decide (b < 0x80))

theorem utf8Decode_ascii (s : List Nat) (h : allASCII s = true) :
    utf8Decode s = s := by
  induction s with
  | nil => rfl
  | cons b t ih =>
    simp only [allASCII, List.all_cons, Bool.and_eq_true, decide_eq_true_eq] at h
    rw [utf8Decode_cons]
    have hstep : utf8Step b t = ([b], t) := by
      unfold utf8Step
      rw [if_pos h.1]
    rw [hstep]
    simp only [List.singleton_append]
    rw [ih (by simp only [allASCII]; exact h.2)]

theorem goToLowerRune_ascii {b : Nat} (h : b < 0x80) :
    goToLowerRune b < 0x80 := by
  unfold goToLowerRune
  split
  · next hb =>
    simp only [Bool.and_eq_true, decide_eq_true_eq] at hb
    omega
  · split
    · next hb _ => omega
    · exact h

theorem goToLower_ascii (s : List Nat) (h : allASCII s = true) :
    goToLower s = s.map goToLowerRune := by
  unfold goToLower
  rw [utf8Decode_ascii s h]
  induction s with
  | nil => rfl
  | cons b t ih =>
    simp only [allASCII, List.all_cons, Bool.and_eq_true, decide_eq_true_eq] at h
    rw [List.flatMap_cons, List.map_cons,
      ih (by simp only [allASCII]; exact h.2)]
    have hb : goToLowerRune b < 0x80 := goToLowerRune_ascii h.1
    simp only [utf8EncodeRune, if_pos hb, List.singleton_append]

theorem goToLower_length_ascii (s : List Nat) (h : allASCII s = true) :
    (goToLower s).length = s.length := by
  rw [goToLower_ascii s h, List.length_map]

theorem goToUpperRune_ascii {b : Nat} (h : b < 0x80) :
    goToUpperRune b < 0x80 := by
  unfold goToUpperRune
  split
  · next hb =>
    simp only [Bool.and_eq_true, decide_eq_true_eq] at hb
    omega
  · exact h

theorem goToUpper_ascii (s : List Nat) (h : allASCII s = true) :
    goToUpper s = s.map goToUpperRune := by
  unfold goToUpper
  rw [utf8Decode_ascii s h]
  induction s with
  | nil => rfl
  | cons b t ih =>
    simp only [allASCII, List.all_cons, Bool.and_eq_true, decide_eq_true_eq] at h
    rw [List.flatMap_cons, List.map_cons,
      ih (by simp only [allASCII]; exact h.2)]
    have hb : goToUpperRune b < 0x80 := goToUpperRune_ascii h.1
    simp only [utf8EncodeRune, if_pos hb, List.singleton_append]

/-- A byte offset range of a match inside a line, `main.go` `MatchRange`.  The
fields are Go `int`s, hence `Int` here. -/
structure MatchRange where
  Start : Int
  End : Int
deriving DecidableEq, Repr

/-- Word bytes for whole-word matching: ASCII letters, digits and underscore
(`main.go` `isWordByte`). -/
def isWordByte (value : Nat) : Bool :=
  (decide (0x61 ≤ value) && decide (value ≤ 0x7A)) ||
    (decide (0x41 ≤ value) && decide (value ≤ 0x5A)) ||
    (decide (0x30 ≤ value) && decide (value ≤ 0x39)) ||
    decide (value = 0x5F)

/-- Whole-word boundary test (`main.go` `isWholeWordMatch`).  Go indexes the
line directly; the offsets it receives stay inside the line whenever case
folding preserves byte length, and `List.getD` with the non-word default `0`
stands in for the out-of-range access that Go would turn into a panic. -/
def isWholeWordMatch (line : List Nat) (start stop : Nat) : Bool :=
  let leftBoundary := decide (start = 0) || !isWordByte (line.getD (start - 1) 0)
  let rightBoundary := decide (stop = line.length) || !isWordByte (line.getD stop 0)
  leftBoundary && rightBoundary

/-- Go `strings.Index`: offset of the first occurrence of `pat` in `s`, `none`
for Go's `-1`. -/
def goIndex : List Nat → List Nat → Option Nat
  | s, pat =>
    if pat.isPrefixOf s then some 0
    else
      match s with
      | [] => none
      | _ :: t => (goIndex t pat).map (fun i => i + 1)

theorem goIndex_bound :
    ∀ s pat i, goIndex s pat = some i →
      pat.isPrefixOf (s.drop i) = true ∧ i + pat.length ≤ s.length := by
  intro s
  induction s with
  | nil =>
    intro pat i h
    unfold goIndex at h
    split at h
    · next hp =>
      cases h
      refine ⟨hp, ?_⟩
      have := List.isPrefixOf_iff_prefix.mp hp
      simpa using List.IsPrefix.length_le this
    · exact absurd h (by simp)
  | cons b t ih =>
    intro pat i h
    unfold goIndex at h
    split at h
    · next hp =>
      cases h
      refine ⟨hp, ?_⟩
      have := List.isPrefixOf_iff_prefix.mp hp
      simpa using List.IsPrefix.length_le this
    · simp only [Option.map_eq_some'] at h
      obtain ⟨j, hj, rfl⟩ := h
      obtain ⟨h1, h2⟩ := ih pat j hj
      refine ⟨by simpa using h1, by simp only [List.length_cons]; omega⟩

/-- Literal-substring matcher (`main.go` `Matcher`). -/
structure Matcher where
  pattern : List Nat
  patternFold : List Nat
  ignoreCase : Bool
  wholeWord : Bool

/-- Constructor `main.go` `newMatcher`: the folded pattern is precomputed only
when `ignoreCase` is set (Go leaves the zero value `""` otherwise). -/
def newMatcher (pattern : List Nat) (ignoreCase wholeWord : Bool) : Matcher :=
  { pattern := pattern
    patternFold := if ignoreCase then goToLower pattern else []
    ignoreCase := ignoreCase
    wholeWord := wholeWord }

/-- Scan loop of `Matcher.FindRanges`: find the next occurrence at or after
`searchFrom`; on acceptance append the range and continue from its end, on a
whole-word rejection continue one byte further.  The cursor strictly increases
and never passes the haystack, so fuel `haystack.length + 1` is always enough
(`findLoop_congr`); the fuel only makes the recursion structural. -/
def findLoop (wholeWord : Bool) (line haystack needle : List Nat) :
    Nat → Nat → List MatchRange
  | 0, _ => []
  | fuel + 1, searchFrom =>
    match goIndex (haystack.drop searchFrom) needle with
    | none => []
    | some index =>
      let start := searchFrom + index
      let stop := start + needle.length
      if !wholeWord || isWholeWordMatch line start stop then
        ⟨(start : Int), (stop : Int)⟩ ::
          findLoop wholeWord line haystack needle fuel stop
      else findLoop wholeWord line haystack needle fuel (start + 1)

/-- Literal-substring search (`main.go` `Matcher.FindRanges`): empty needle
yields no matches; with `ignoreCase` both needle and haystack are the
lowercase foldings while offsets are reported against the folded haystack. -/
def Matcher.FindRanges (matcher : Matcher) (line : List Nat) : List MatchRange :=
  let needle := if matcher.ignoreCase then matcher.patternFold else matcher.pattern
  let haystack := if matcher.ignoreCase then goToLower line else line
  if needle = [] then []
  else findLoop matcher.wholeWord line haystack needle (haystack.length + 1) 0

theorem goIndex_nil {needle : List Nat} (hn : needle ≠ []) :
    goIndex [] needle = none := by
  match needle, hn with
  | b :: p, _ => rfl

theorem findLoop_past (w : Bool) (line hay needle : List Nat)
    (hn : needle ≠ []) :
    ∀ fuel sf, hay.length < sf → findLoop w line hay needle fuel sf = [] := by
  intro fuel sf hsf
  cases fuel with
  | zero => rfl
  | succ fuel =>
    have hd : hay.drop sf = [] := List.drop_eq_nil_of_le (Nat.le_of_lt hsf)
    simp only [findLoop, hd, goIndex_nil hn]

theorem findLoop_congr (w : Bool) (line hay needle : List Nat)
    (hn : needle ≠ []) :
    ∀ f1 f2 sf, hay.length + 1 ≤ f1 + sf → hay.length + 1 ≤ f2 + sf →
      findLoop w line hay needle f1 sf = findLoop w line hay needle f2 sf := by
  intro f1
  induction f1 with
  | zero =>
    intro f2 sf h1 h2
    rw [findLoop_past w line hay needle hn 0 sf (by omega),
      findLoop_past w line hay needle hn f2 sf (by omega)]
  | succ f1 ih =>
    intro f2 sf h1 h2
    by_cases hsf : hay.length < sf
    · rw [findLoop_past w line hay needle hn _ sf hsf,
        findLoop_past w line hay needle hn f2 sf hsf]
    · have hsf' : sf ≤ hay.length := Nat.le_of_not_lt hsf
      match f2 with
      | 0 => omega
      | f2 + 1 =>
        simp only [findLoop]
        match hidx : goIndex (hay.drop sf) needle with
        | none => rfl
        | some index =>
          obtain ⟨-, hb⟩ := goIndex_bound _ _ _ hidx
          rw [List.length_drop] at hb
          have hne : 1 ≤ needle.length := by
            cases needle with
            | nil => exact absurd rfl hn
            | cons a t => simp
          try dsimp only
          split
          · rw [ih f2 (sf + index + needle.length) (by omega) (by omega)]
          · rw [ih f2 (sf + index + 1) (by omega) (by omega)]

theorem findLoop_mem (w : Bool) (line hay needle : List Nat)
    (hn : needle ≠ []) :
    ∀ fuel sf r, r ∈ findLoop w line hay needle fuel sf →
      ∃ a b : Nat, r = ⟨(a : Int), (b : Int)⟩ ∧ sf ≤ a ∧
        b = a + needle.length ∧ b ≤ hay.length ∧
        (w = true → isWholeWordMatch line a b = true) := by
  intro fuel
  induction fuel with
  | zero => intro sf r h; exact absurd h (by simp [findLoop])
  | succ fuel ih =>
    intro sf r h
    simp only [findLoop] at h
    match hidx : goIndex (hay.drop sf) needle with
    | none => rw [hidx] at h; exact absurd h (by simp)
    | some index =>
      rw [hidx] at h
      obtain ⟨-, hb⟩ := goIndex_bound _ _ _ hidx
      rw [List.length_drop] at hb
      have hne : 1 ≤ needle.length := by
        cases needle with
        | nil => exact absurd rfl hn
        | cons a t => simp
      dsimp only at h
      split at h
      · next hacc =>
        rcases List.mem_cons.mp h with hr | hr
        · refine ⟨sf + index, sf + index + needle.length, hr, by omega, rfl,
            by omega, ?_⟩
          intro hw
          rw [hw] at hacc
          simpa using hacc
        · obtain ⟨a, b, h1, h2, h3, h4, h5⟩ := ih _ r hr
          exact ⟨a, b, h1, by omega, h3, h4, h5⟩
      · obtain ⟨a, b, h1, h2, h3, h4, h5⟩ := ih _ r h
        exact ⟨a, b, h1, by omega, h3, h4, h5⟩

theorem findLoop_chain (w : Bool) (line hay needle : List Nat)
    (hn : needle ≠ []) :
    ∀ fuel sf, List.Chain'
      (fun x y => x.End ≤ y.Start ∧ x.Start < y.Start)
      (findLoop w line hay needle fuel sf) := by
  intro fuel
  induction fuel with
  | zero => intro sf; simp [findLoop]
  | succ fuel ih =>
    intro sf
    simp only [findLoop]
    match hidx : goIndex (hay.drop sf) needle with
    | none => simp
    | some index =>
      have hne : 1 ≤ needle.length := by
        cases needle with
        | nil => exact absurd rfl hn
        | cons a t => simp
      try dsimp only
      split
      · refine List.chain'_cons'.mpr ⟨?_, ih _⟩
        intro y hy
        have hy' : y ∈ findLoop w line hay needle fuel (sf + index + needle.length) :=
          List.mem_of_mem_head? hy
        obtain ⟨a, b, h1, h2, h3, h4, h5⟩ := findLoop_mem w line hay needle hn _ _ _ hy'
        subst h1
        constructor
        · show ((sf + index + needle.length : Nat) : Int) ≤ (a : Int)
          exact_mod_cast h2
        · show ((sf + index : Nat) : Int) < (a : Int)
          exact_mod_cast (by omega : sf + index < a)
      · exact ih _

/-- Modelled from the spec: a compiled Go regular expression, represented by
its `FindAllStringIndex` behavior.  The engine itself is outside this
repository, so it is specified by the properties the spec states for it
("`findRanges` returns all non-overlapping matches in order", §4.1) together
with Go's guarantee that returned indices lie inside the searched string. -/
structure GoRegexp where
  findAll : List Nat → List (Nat × Nat)
  findAll_bounds : ∀ line p, p ∈ findAll line → p.1 ≤ p.2 ∧ p.2 ≤ line.length
  findAll_chain : ∀ line,
    List.Chain' (fun a b => a.1 < b.1 ∧ a.2 ≤ b.1) (findAll line)

/-- Regex strategy wrapper (`main.go` `RegexStrategy`). -/
structure RegexStrategy where
  expression : GoRegexp

/-- Regex search (`main.go` `RegexStrategy.FindRanges`): map the engine's
index pairs to `MatchRange`s (the length-zero early return is extensionally
the same mapping). -/
def RegexStrategy.FindRanges (strategy : RegexStrategy) (line : List Nat) :
    List MatchRange :=
  (strategy.expression.findAll line).map (fun p => ⟨(p.1 : Int), (p.2 : Int)⟩)

/-- The two match strategies `buildStrategy` can return (`main.go`
`MatchStrategy` interface). -/
inductive MatchStrategy where
  | literal (matcher : Matcher)
  | regex (strategy : RegexStrategy)

/-- Dispatch of `FindRanges` over the strategy interface. -/
def MatchStrategy.FindRanges : MatchStrategy → List Nat → List MatchRange
  | .literal matcher, line => matcher.FindRanges line
  | .regex strategy, line => strategy.FindRanges line

/-- The byte string a strategy actually scans: the lowercase folding for a
case-insensitive literal matcher, the line itself otherwise. -/
def MatchStrategy.searchedText : MatchStrategy → List Nat → List Nat
  | .literal matcher, line => if matcher.ignoreCase then goToLower line else line
  | .regex _, line => line

/-- Byte of `line` at (possibly out-of-range or negative) offset `k`. -/
def byteAt (line : List Nat) (k : Int) : Option Nat :=
  if 0 ≤ k ∧ k < (line.length : Int) then some (line.getD k.toNat 0) else none

/-- C1: the claim states that every range returned by `FindRanges` satisfies
`0 ≤ start ≤ end ≤ len(line)` for every option combination, and the repo's
own fuzz test `FuzzMatcherFindRanges` asserts exactly this bound with
`ignoreCase = true`.  The code computes offsets on the case-folded line, and
folding can grow the byte length: for pattern `ⱥ` (U+2C65) and line `Ⱥ`
(U+023A, two bytes, folding to the three-byte U+2C65), the returned range
ends at 3 > 2. -/
theorem C1_case_folding_breaks_range_bound :
    ∃ r ∈ (MatchStrategy.literal
        (newMatcher [0xE2, 0xB1, 0xA5] true false)).FindRanges [0xC8, 0xBA],
      ¬(r.End ≤ (([0xC8, 0xBA] : List Nat).length : Int)) :=
  ⟨⟨0, 3⟩, by decide, by decide⟩

/-- Every range produced by the literal matcher comes from an accepted match
of the (non-empty) needle against the searched haystack. -/
theorem matcher_findRanges_mem (matcher : Matcher) (line : List Nat)
    (r : MatchRange) (hr : r ∈ matcher.FindRanges line) :
    ∃ a b : Nat, r = ⟨(a : Int), (b : Int)⟩ ∧ a < b ∧
      b ≤ (if matcher.ignoreCase then goToLower line else line).length ∧
      (matcher.wholeWord = true → isWholeWordMatch line a b = true) := by
  cases hic : matcher.ignoreCase <;>
    simp only [Matcher.FindRanges, hic, Bool.false_eq_true, if_false, if_true] at hr <;>
    split at hr
  case false.isTrue => exact absurd hr (by simp)
  case false.isFalse hn =>
    obtain ⟨a, b, h1, -, h3, h4, h5⟩ := findLoop_mem _ line _ _ hn _ _ r hr
    have hne : 1 ≤ matcher.pattern.length := by
      cases hp : matcher.pattern with
      | nil => exact absurd hp hn
      | cons x t => simp
    exact ⟨a, b, h1, by omega, h4, h5⟩
  case true.isTrue => exact absurd hr (by simp)
  case true.isFalse hn =>
    obtain ⟨a, b, h1, -, h3, h4, h5⟩ := findLoop_mem _ line _ _ hn _ _ r hr
    have hne : 1 ≤ matcher.patternFold.length := by
      cases hp : matcher.patternFold with
      | nil => exact absurd hp hn
      | cons x t => simp
    exact ⟨a, b, h1, by omega, h4, h5⟩

/-- Chain form of the non-overlap invariant for the literal matcher. -/
theorem matcher_findRanges_chain (matcher : Matcher) (line : List Nat) :
    List.Chain' (fun x y => x.End ≤ y.Start ∧ x.Start < y.Start)
      (matcher.FindRanges line) := by
  cases hic : matcher.ignoreCase <;>
    simp only [Matcher.FindRanges, hic, Bool.false_eq_true, if_false, if_true] <;>
    split
  case false.isTrue => simp
  case false.isFalse hn => exact findLoop_chain _ _ _ _ hn _ _
  case true.isTrue => simp
  case true.isFalse hn => exact findLoop_chain _ _ _ _ hn _ _

/-- C2: for every line, the ranges returned by `FindRanges` (literal or regex
strategy) are strictly increasing in `start`, and each range's `end` is at
most the next range's `start`, so successive ranges never overlap. -/
theorem C2_findRanges_nonoverlapping (strategy : MatchStrategy)
    (line : List Nat) :
    List.Pairwise (fun x y => x.Start < y.Start)
      (strategy.FindRanges line) ∧
    List.Chain' (fun x y => x.End ≤ y.Start) (strategy.FindRanges line) := by
  have key : ∀ rs : List MatchRange,
      List.Chain' (fun x y => x.End ≤ y.Start ∧ x.Start < y.Start) rs →
      List.Pairwise (fun x y : MatchRange => x.Start < y.Start) rs ∧
        List.Chain' (fun x y : MatchRange => x.End ≤ y.Start) rs := by
    intro rs h
    haveI : IsTrans MatchRange
        (fun x y => x.End ≤ y.Start ∧ x.Start < y.Start) :=
      ⟨by
        rintro a b c ⟨h1, h2⟩ ⟨h3, h4⟩
        exact ⟨le_trans h1 (le_of_lt h4), lt_trans h2 h4⟩⟩
    constructor
    · exact List.Pairwise.imp (fun hxy => hxy.2) (List.chain'_iff_pairwise.mp h)
    · exact List.Chain'.imp (fun _ _ hxy => hxy.1) h
  cases strategy with
  | literal matcher => exact key _ (matcher_findRanges_chain matcher line)
  | regex strategy =>
    refine key _ ?_
    simp only [MatchStrategy.FindRanges, RegexStrategy.FindRanges]
    refine (List.chain'_map _).mpr ?_
    refine List.Chain'.imp ?_ (strategy.expression.findAll_chain line)
    rintro a b ⟨h1, h2⟩
    constructor
    · show (a.2 : Int) ≤ (b.1 : Int)
      exact_mod_cast h2
    · show (a.1 : Int) < (b.1 : Int)
      exact_mod_cast h1

/-- C3: in literal substring mode with `wholeWord = true`, every returned
range has no word byte immediately before its start and none immediately
after its end in the original line; absent neighbors count as non-word. -/
theorem C3_whole_word_boundaries (pattern line : List Nat) (ignoreCase : Bool)
    (r : MatchRange)
    (hr : r ∈ (newMatcher pattern ignoreCase true).FindRanges line) :
    (∀ v, byteAt line (r.Start - 1) = some v → isWordByte v = false) ∧
    (∀ v, byteAt line r.End = some v → isWordByte v = false) := by
  obtain ⟨a, b, rfl, -, -, hww⟩ :=
    matcher_findRanges_mem (newMatcher pattern ignoreCase true) line r hr
  have hw := hww rfl
  simp only [isWholeWordMatch, Bool.and_eq_true, Bool.or_eq_true,
    decide_eq_true_eq, Bool.not_eq_true'] at hw
  obtain ⟨hleft, hright⟩ := hw
  constructor
  · intro v hv
    simp only [byteAt] at hv
    split at hv
    · next hk =>
      cases hv
      rcases hleft with h0 | hnw
      · subst h0
        exact absurd hk.1 (by norm_num)
      · have ht : ((a : Int) - 1).toNat = a - 1 := by omega
        rw [ht]
        exact hnw
    · exact absurd hv (by simp)
  · intro v hv
    simp only [byteAt] at hv
    split at hv
    · next hk =>
      cases hv
      rcases hright with h0 | hnw
      · rw [h0] at hk
        exact absurd hk.2 (by exact lt_irrefl _)
      · have ht : ((b : Int)).toNat = b := by omega
        rw [ht]
        exact hnw
    · exact absurd hv (by simp)

/-- Witness for C3 at pattern `ab`, line `ab ab9`: the first occurrence is
whole-word and is returned, the occurrence followed by `9` is rejected. -/
theorem C3_whole_word_boundaries_witness :
    (⟨0, 2⟩ : MatchRange) ∈
        (newMatcher [97, 98] false true).FindRanges [97, 98, 32, 97, 98, 57] ∧
    ((∀ v, byteAt [97, 98, 32, 97, 98, 57]
          ((⟨0, 2⟩ : MatchRange).Start - 1) = some v → isWordByte v = false) ∧
      (∀ v, byteAt [97, 98, 32, 97, 98, 57]
          ((⟨0, 2⟩ : MatchRange).End) = some v → isWordByte v = false)) :=
  ⟨by decide,
    C3_whole_word_boundaries [97, 98] [97, 98, 32, 97, 98, 57] false ⟨0, 2⟩
      (by decide)⟩

/-- ANSI red escape `\x1b[31m` spliced before each highlighted range. -/
def highlightRed : List Nat := [27, 91, 51, 49, 109]

/-- ANSI reset escape `\x1b[0m` spliced after each highlighted range. -/
def highlightReset : List Nat := [27, 91, 48, 109]

/-- Go string slicing `s[lo:hi]` with `int` indices: `none` models the
bounds-check panic (`0 ≤ lo ≤ hi ≤ len` required). -/
def goSliceInt (s : List Nat) (lo hi : Int) : Option (List Nat) :=
  if 0 ≤ lo ∧ lo ≤ hi ∧ hi ≤ (s.length : Int) then
    some ((s.take hi.toNat).drop lo.toNat)
  else none

/-- Loop of `main.go` `highlightRanges`: skip a range when its start is before
the last written end or either endpoint is past the line, otherwise write the
gap, the red escape, the range, and the reset escape; `none` models the panic
Go raises when an accepted range's slice is malformed (`End < Start`).  The Go
loop appends to one builder and adds the final gap after the loop; building
the suffix first and concatenating is the same string. -/
def highlightLoop (line : List Nat) : List MatchRange → Int → Option (List Nat)
  | [], last => goSliceInt line last (line.length : Int)
  | m :: rest, last =>
    if m.Start < last ∨ (line.length : Int) < m.Start ∨ (line.length : Int) < m.End then
      highlightLoop line rest last
    else
      match goSliceInt line last m.Start, goSliceInt line m.Start m.End with
      | some pre, some mid =>
        (highlightLoop line rest m.End).map
          (fun tail => pre ++ highlightRed ++ mid ++ highlightReset ++ tail)
      | _, _ => none

/-- Range highlighting (`main.go` `highlightRanges`): unchanged line for an
empty range list, otherwise the splicing loop from offset 0. -/
def highlightRanges (line : List Nat) (ranges : List MatchRange) :
    Option (List Nat) :=
  if ranges = [] then some line else highlightLoop line ranges 0

/-- Fuel-indexed loop deleting every occurrence of the two ANSI escapes, left
to right; fuel equal to the byte length is always sufficient
(`stripAnsiFuel_stable`), the fuel only makes the recursion structural. -/
def stripAnsiFuel : Nat → List Nat → List Nat
  | 0, s => s
  | fuel + 1, s =>
    match highlightRed.isPrefixOf s, highlightReset.isPrefixOf s, s with
    | true, _, s => stripAnsiFuel fuel (s.drop 5)
    | false, true, s => stripAnsiFuel fuel (s.drop 4)
    | false, false, [] => []
    | false, false, b :: t => b :: stripAnsiFuel fuel t

/-- Delete every occurrence of `\x1b[31m` and `\x1b[0m` from a byte string,
scanning left to right. -/
def stripAnsi (s : List Nat) : List Nat :=
  stripAnsiFuel s.length s

theorem stripAnsiFuel_congr :
    ∀ f1 f2 s, List.length s ≤ f1 → List.length s ≤ f2 →
      stripAnsiFuel f1 s = stripAnsiFuel f2 s := by
  intro f1
  induction f1 with
  | zero =>
    intro f2 s hs _
    have : s = [] := List.length_eq_zero.mp (Nat.le_zero.mp hs)
    subst this
    cases f2 with
    | zero => rfl
    | succ f2 => rfl
  | succ f1 ih =>
    intro f2 s hs1 hs2
    match s with
    | [] =>
      cases f2 with
      | zero => rfl
      | succ f2 => rfl
    | b :: t =>
      match f2 with
      | 0 => exact absurd hs2 (by simp)
      | f2 + 1 =>
        simp only [List.length_cons] at hs1 hs2
        cases hred : highlightRed.isPrefixOf (b :: t) with
        | true =>
          have h5 : 5 ≤ t.length + 1 := by
            have := List.IsPrefix.length_le (List.isPrefixOf_iff_prefix.mp hred)
            simpa [highlightRed] using this
          simp only [stripAnsiFuel, hred]
          exact ih f2 _ (by simp only [List.length_drop, List.length_cons]; omega)
            (by simp only [List.length_drop, List.length_cons]; omega)
        | false =>
          cases hres : highlightReset.isPrefixOf (b :: t) with
          | true =>
            have h4 : 4 ≤ t.length + 1 := by
              have := List.IsPrefix.length_le (List.isPrefixOf_iff_prefix.mp hres)
              simpa [highlightReset] using this
            simp only [stripAnsiFuel, hred, hres]
            exact ih f2 _
              (by simp only [List.length_drop, List.length_cons]; omega)
              (by simp only [List.length_drop, List.length_cons]; omega)
          | false =>
            simp only [stripAnsiFuel, hred, hres]
            exact congrArg _ (ih f2 t (by omega) (by omega))

theorem stripAnsiFuel_stable (fuel : Nat) (s : List Nat)
    (h : List.length s ≤ fuel) : stripAnsiFuel fuel s = stripAnsi s :=
  stripAnsiFuel_congr fuel s.length s h (Nat.le_refl _)

theorem stripAnsi_cons (b : Nat) (t : List Nat) :
    stripAnsi (b :: t) =
      match highlightRed.isPrefixOf (b :: t),
          highlightReset.isPrefixOf (b :: t) with
      | true, _ => stripAnsi ((b :: t).drop 5)
      | false, true => stripAnsi ((b :: t).drop 4)
      | false, false => b :: stripAnsi t := by
  show stripAnsiFuel (t.length + 1) (b :: t) = _
  cases hred : highlightRed.isPrefixOf (b :: t) with
  | true =>
    simp only [stripAnsiFuel, hred]
    exact stripAnsiFuel_stable t.length _
      (by simp only [List.length_drop, List.length_cons]; omega)
  | false =>
    cases hres : highlightReset.isPrefixOf (b :: t) with
    | true =>
      simp only [stripAnsiFuel, hred, hres]
      exact stripAnsiFuel_stable t.length _
        (by simp only [List.length_drop, List.length_cons]; omega)
    | false =>
      simp only [stripAnsiFuel, hred, hres]
      exact congrArg _ (stripAnsiFuel_stable t.length t (Nat.le_refl _))

theorem prefix_append_cases {p a b : List Nat} (h : p <+: a ++ b) :
    p <+: a ∨ (a <+: p ∧ p.drop a.length <+: b) := by
  rcases le_or_lt p.length a.length with hl | hl
  · exact Or.inl (List.prefix_of_prefix_length_le h (List.prefix_append a b) hl)
  · have ha : a <+: p :=
      List.prefix_of_prefix_length_le (List.prefix_append a b) h (le_of_lt hl)
    refine Or.inr ⟨ha, ?_⟩
    obtain ⟨u, rfl⟩ := ha
    rw [List.drop_left]
    exact (List.prefix_append_right_inj a).mp h

/-- A run of bytes free of both ANSI escapes, followed by material that starts
with one of them (or by nothing), never lets an escape match across the seam:
no proper suffix of either escape is a prefix of either escape. -/
theorem ansi_prefix_of_append {Y : List Nat}
    (hY : Y = highlightRed ∨ Y = highlightReset) {c s' : List Nat}
    (hc : c ≠ []) (hnored : ¬ highlightRed <:+: c)
    (hnoreset : ¬ highlightReset <:+: c)
    (hs : s' = [] ∨ (∃ u, s' = highlightRed ++ u) ∨
      ∃ u, s' = highlightReset ++ u) :
    ¬ (Y <+: c ++ s') := by
  intro hp
  have hYinfix : ¬ Y <:+: c := by
    rcases hY with rfl | rfl
    · exact hnored
    · exact hnoreset
  have hYlen : Y.length ≤ 5 := by
    rcases hY with rfl | rfl <;> simp [highlightRed, highlightReset]
  rcases prefix_append_cases hp with h1 | ⟨h2, h3⟩
  · exact hYinfix h1.isInfix
  · have hk1 : 1 ≤ c.length := by
      cases c with
      | nil => exact absurd rfl hc
      | cons x xs => simp
    have hk2 : c.length ≤ Y.length := List.IsPrefix.length_le h2
    rcases Nat.eq_or_lt_of_le hk2 with heq | hlt
    · have : c = Y := List.IsPrefix.eq_of_length h2 heq
      subst this
      exact hYinfix (List.infix_refl c)
    · have hzlen : (Y.drop c.length).length = Y.length - c.length := by
        simp [List.length_drop]
      have hzne : Y.drop c.length ≠ [] := by
        intro hz
        rw [hz] at hzlen
        simp at hzlen
        omega
      rcases hs with rfl | ⟨u, rfl⟩ | ⟨u, rfl⟩
      · exact hzne (List.prefix_nil.mp h3)
      · have hz : Y.drop c.length <+: highlightRed :=
          List.prefix_of_prefix_length_le h3 (List.prefix_append _ _)
            (by
              rw [hzlen]
              show Y.length - c.length ≤ highlightRed.length
              simp only [highlightRed, List.length_cons, List.length_nil]
              omega)
        rcases hY with rfl | rfl
        · set k := c.length with hk
          have hb : k < 5 := by simpa [highlightRed] using hlt
          interval_cases k <;> revert hz <;> decide
        · set k := c.length with hk
          have hb : k < 4 := by simpa [highlightReset] using hlt
          interval_cases k <;> revert hz <;> decide
      · have hz : Y.drop c.length <+: highlightReset :=
          List.prefix_of_prefix_length_le h3 (List.prefix_append _ _)
            (by
              rw [hzlen]
              show Y.length - c.length ≤ highlightReset.length
              simp only [highlightReset, List.length_cons, List.length_nil]
              omega)
        rcases hY with rfl | rfl
        · set k := c.length with hk
          have hb : k < 5 := by simpa [highlightRed] using hlt
          interval_cases k <;> revert hz <;> decide
        · set k := c.length with hk
          have hb : k < 4 := by simpa [highlightReset] using hlt
          interval_cases k <;> revert hz <;> decide

theorem stripAnsi_red_append (u : List Nat) :
    stripAnsi (highlightRed ++ u) = stripAnsi u := by
  rw [show highlightRed ++ u = 27 :: (91 :: 51 :: 49 :: 109 :: u) from rfl,
    stripAnsi_cons]
  have hred : highlightRed.isPrefixOf (27 :: (91 :: 51 :: 49 :: 109 :: u)) = true :=
    List.isPrefixOf_iff_prefix.mpr ⟨u, rfl⟩
  rw [hred]
  rfl

theorem reset_not_red_isPrefixOf (u : List Nat) :
    highlightRed.isPrefixOf (27 :: (91 :: 48 :: 109 :: u)) = false := by
  simp [highlightRed, List.isPrefixOf]

theorem stripAnsi_reset_append (u : List Nat) :
    stripAnsi (highlightReset ++ u) = stripAnsi u := by
  rw [show highlightReset ++ u = 27 :: (91 :: 48 :: 109 :: u) from rfl,
    stripAnsi_cons]
  have hres : highlightReset.isPrefixOf (27 :: (91 :: 48 :: 109 :: u)) = true :=
    List.isPrefixOf_iff_prefix.mpr ⟨u, rfl⟩
  rw [reset_not_red_isPrefixOf, hres]
  rfl

theorem stripAnsi_noOcc (s : List Nat) (hr : ¬ highlightRed <:+: s)
    (hs : ¬ highlightReset <:+: s) : stripAnsi s = s := by
  induction s with
  | nil => rfl
  | cons b t ih =>
    have h1 : highlightRed.isPrefixOf (b :: t) = false := by
      rw [Bool.eq_false_iff]
      intro hx
      exact hr (List.isPrefixOf_iff_prefix.mp hx).isInfix
    have h2 : highlightReset.isPrefixOf (b :: t) = false := by
      rw [Bool.eq_false_iff]
      intro hx
      exact hs (List.isPrefixOf_iff_prefix.mp hx).isInfix
    rw [stripAnsi_cons, h1, h2]
    exact congrArg _ (ih (fun hx => hr (List.infix_cons hx))
      (fun hx => hs (List.infix_cons hx)))

theorem strip_chunk :
    ∀ c s' : List Nat, ¬ highlightRed <:+: c → ¬ highlightReset <:+: c →
      (s' = [] ∨ (∃ u, s' = highlightRed ++ u) ∨
        ∃ u, s' = highlightReset ++ u) →
      stripAnsi (c ++ s') = c ++ stripAnsi s' := by
  intro c
  induction c with
  | nil => intro s' _ _ _; simp
  | cons b c' ih =>
    intro s' hr hs hshape
    have h1 : highlightRed.isPrefixOf (b :: (c' ++ s')) = false := by
      rw [Bool.eq_false_iff]
      intro hx
      exact ansi_prefix_of_append (Or.inl rfl) (by simp) hr hs hshape
        (List.isPrefixOf_iff_prefix.mp hx)
    have h2 : highlightReset.isPrefixOf (b :: (c' ++ s')) = false := by
      rw [Bool.eq_false_iff]
      intro hx
      exact ansi_prefix_of_append (Or.inr rfl) (by simp) hr hs hshape
        (List.isPrefixOf_iff_prefix.mp hx)
    rw [List.cons_append, stripAnsi_cons, h1, h2,
      ih s' (fun hx => hr (List.infix_cons hx))
        (fun hx => hs (List.infix_cons hx)) hshape]
    rfl

theorem slice_glue (l : List Nat) (i j : Nat) (hij : i ≤ j)
    (hj : j ≤ l.length) : (l.take j).drop i ++ l.drop j = l.drop i := by
  conv_rhs => rw [← List.take_append_drop j l]
  rw [List.drop_append_of_le_length (by simp [List.length_take]; omega)]

theorem slice_noOcc {X l : List Nat} (h : ¬ X <:+: l) (i j : Nat) :
    ¬ X <:+: (l.take j).drop i := fun hx =>
  h (hx.trans ((List.drop_suffix _ _).isInfix.trans
    (List.take_prefix _ _).isInfix))

/-- Splicing as the spec's printer section describes it ("splice ANSI
sequences around each valid, non-overlapping, non-retrograde range; ignore
any range whose `start < last_written_end` or whose endpoints are out of
bounds"), written with truncating slices so that it is total. -/
def specHighlight (line : List Nat) : List MatchRange → Int → List Nat
  | [], last => line.drop last.toNat
  | m :: rest, last =>
    if m.Start < last ∨ (line.length : Int) < m.Start ∨
        (line.length : Int) < m.End then
      specHighlight line rest last
    else
      (line.take m.Start.toNat).drop last.toNat ++ highlightRed ++
        (line.take m.End.toNat).drop m.Start.toNat ++ highlightReset ++
        specHighlight line rest m.End

theorem highlightLoop_eq_spec (line : List Nat) :
    ∀ (ranges : List MatchRange) (last : Int), 0 ≤ last →
      last ≤ (line.length : Int) → (∀ r ∈ ranges, r.Start ≤ r.End) →
      highlightLoop line ranges last =
        some (specHighlight line ranges last) := by
  intro ranges
  induction ranges with
  | nil =>
    intro last h0 hl _
    simp only [highlightLoop, specHighlight, goSliceInt]
    rw [if_pos ⟨h0, hl, le_refl _⟩]
    congr 1
    rw [Int.toNat_natCast, List.take_length]
  | cons m rest ih =>
    intro last h0 hl hwf
    simp only [highlightLoop, specHighlight]
    split
    · exact ih last h0 hl (fun r hr => hwf r (List.mem_cons_of_mem _ hr))
    · next hcond =>
      push_neg at hcond
      obtain ⟨hc1, hc2, hc3⟩ := hcond
      have hse : m.Start ≤ m.End := hwf m (List.mem_cons_self _ _)
      rw [goSliceInt, if_pos ⟨h0, hc1, hc2⟩, goSliceInt,
        if_pos ⟨le_trans h0 hc1, hse, hc3⟩,
        ih m.End (le_trans (le_trans h0 hc1) hse) hc3
          (fun r hr => hwf r (List.mem_cons_of_mem _ hr))]
      rfl

theorem strip_loop (line : List Nat) (hnr : ¬ highlightRed <:+: line)
    (hns : ¬ highlightReset <:+: line) :
    ∀ (ranges : List MatchRange) (last : Int), 0 ≤ last →
      last ≤ (line.length : Int) →
      (∀ r ∈ ranges, 0 ≤ r.Start ∧ r.Start ≤ r.End ∧
        r.End ≤ (line.length : Int)) →
      List.Chain' (fun a b => a.End ≤ b.Start) ranges →
      (∀ b, ranges.head? = some b → last ≤ b.Start) →
      ∃ out, highlightLoop line ranges last = some out ∧
        stripAnsi out = line.drop last.toNat := by
  intro ranges
  induction ranges with
  | nil =>
    intro last h0 hl _ _ _
    refine ⟨(line.take (line.length : Int).toNat).drop last.toNat, ?_, ?_⟩
    · simp only [highlightLoop, goSliceInt]
      rw [if_pos ⟨h0, hl, le_refl _⟩]
    · rw [Int.toNat_natCast, List.take_length]
      exact stripAnsi_noOcc _
        (fun hx => hnr (hx.trans (List.drop_suffix _ _).isInfix))
        (fun hx => hns (hx.trans (List.drop_suffix _ _).isInfix))
  | cons m rest ih =>
    intro last h0 hl hwf hchain hfirst
    obtain ⟨hm0, hmse, hmend⟩ := hwf m (List.mem_cons_self _ _)
    have hstart_le : m.Start ≤ (line.length : Int) := le_trans hmse hmend
    have hlast_start : last ≤ m.Start := hfirst m rfl
    simp only [highlightLoop]
    rw [if_neg (by push_neg; exact ⟨hlast_start, hstart_le, hmend⟩),
      goSliceInt, if_pos ⟨h0, hlast_start, hstart_le⟩,
      goSliceInt, if_pos ⟨hm0, hmse, hmend⟩]
    obtain ⟨tail, htail, hstrip⟩ := ih m.End (le_trans hm0 hmse) hmend
      (fun r hr => hwf r (List.mem_cons_of_mem _ hr))
      (List.chain'_cons'.mp hchain).2
      (fun b hb => (List.chain'_cons'.mp hchain).1 b hb)
    rw [htail]
    refine ⟨_, rfl, ?_⟩
    simp only [List.append_assoc]
    rw [strip_chunk _ _ (slice_noOcc hnr _ _) (slice_noOcc hns _ _)
        (Or.inr (Or.inl ⟨_, rfl⟩)),
      stripAnsi_red_append,
      strip_chunk _ _ (slice_noOcc hnr _ _) (slice_noOcc hns _ _)
        (Or.inr (Or.inr ⟨_, rfl⟩)),
      stripAnsi_reset_append, hstrip]
    rw [slice_glue line m.Start.toNat m.End.toNat (by omega) (by omega),
      slice_glue line last.toNat m.Start.toNat (by omega) (by omega)]

/-- C9 counterexample: `highlightRanges` is not total.  The range `(1, 0)`
passes all three guards (`start ≥ last`, endpoints at most `len`), and the
accepted slice `line[1:0]` then panics in Go, modelled by `none`. -/
theorem C9_malformed_range_panics :
    highlightRanges [97, 98] [⟨1, 0⟩] = none := by decide

/-- C9 (amended): whenever every range satisfies `start ≤ end`,
`highlightRanges` returns a string without panicking, ignoring any range
whose start is less than the last written end or whose endpoints lie outside
the line's bounds, and splicing the ANSI red sequences around each remaining
range. -/
theorem C9_highlight_total_and_splices (line : List Nat)
    (ranges : List MatchRange) (h : ∀ r ∈ ranges, r.Start ≤ r.End) :
    highlightRanges line ranges = some (specHighlight line ranges 0) := by
  unfold highlightRanges
  split
  · next heq => subst heq; simp [specHighlight]
  · exact highlightLoop_eq_spec line ranges 0 (le_refl _)
      (Int.natCast_nonneg _) h

/-- Witness for C9 at line `abc`, ranges `[(1,2)]`. -/
theorem C9_highlight_total_and_splices_witness :
    (∀ r ∈ ([⟨1, 2⟩] : List MatchRange), r.Start ≤ r.End) ∧
    highlightRanges [97, 98, 99] [⟨1, 2⟩] =
      some (specHighlight [97, 98, 99] [⟨1, 2⟩] 0) :=
  ⟨by decide, C9_highlight_total_and_splices [97, 98, 99] [⟨1, 2⟩] (by decide)⟩

/-- C10 counterexample: for a line that itself contains the ANSI reset
sequence, with the well-formed empty range list, deleting the ANSI sequences
from `highlightRanges`' output does not return the original line. -/
theorem C10_strip_deletes_line_bytes :
    highlightRanges [27, 91, 48, 109] [] = some [27, 91, 48, 109] ∧
    stripAnsi [27, 91, 48, 109] ≠ [27, 91, 48, 109] := by decide

/-- C10 (amended): for every well-formed range list (each range inside the
line with `start ≤ end`, successive ranges non-overlapping) over a line that
contains neither ANSI sequence as a substring, deleting every occurrence of
`\x1b[31m` and `\x1b[0m` from the output of `highlightRanges` yields exactly
the original line. -/
theorem C10_strip_highlight_of_clean_line (line : List Nat)
    (ranges : List MatchRange)
    (hwf : ∀ r ∈ ranges, 0 ≤ r.Start ∧ r.Start ≤ r.End ∧
      r.End ≤ (line.length : Int))
    (hchain : List.Chain' (fun a b => a.End ≤ b.Start) ranges)
    (hnr : ¬ highlightRed <:+: line) (hns : ¬ highlightReset <:+: line) :
    (highlightRanges line ranges).map stripAnsi = some line := by
  unfold highlightRanges
  split
  · rw [Option.map_some']
    rw [stripAnsi_noOcc line hnr hns]
  · obtain ⟨out, h1, h2⟩ := strip_loop line hnr hns ranges 0 (le_refl _)
      (Int.natCast_nonneg _) hwf hchain
      (fun b hb => (hwf b (List.mem_of_mem_head? hb)).1)
    rw [h1, Option.map_some', h2]
    rfl

/-- Witness for C10 at line `hi`, ranges `[(0,1)]`. -/
theorem C10_strip_highlight_of_clean_line_witness :
    ((∀ r ∈ ([⟨0, 1⟩] : List MatchRange), 0 ≤ r.Start ∧ r.Start ≤ r.End ∧
        r.End ≤ (([104, 105] : List Nat).length : Int)) ∧
      List.Chain' (fun a b => a.End ≤ b.Start) ([⟨0, 1⟩] : List MatchRange) ∧
      ¬ highlightRed <:+: [104, 105] ∧ ¬ highlightReset <:+: [104, 105]) ∧
    (highlightRanges [104, 105] [⟨0, 1⟩]).map stripAnsi = some [104, 105] :=
  ⟨⟨by decide, List.chain'_singleton _, by decide, by decide⟩,
    C10_strip_highlight_of_clean_line [104, 105] [⟨0, 1⟩] (by decide)
      (List.chain'_singleton _) (by decide) (by decide)⟩

/-- Unicode scalar values: below `0x110000` and not a surrogate. -/
def validRune (r : Nat) : Bool :=
  decide (r < 0x110000) && !(decide (0xD800 ≤ r) && decide (r ≤ 0xDFFF))

theorem utf8EncodeRune_ascii {r : Nat} (h : r < 0x80) :
    utf8EncodeRune r = [r] := by
  unfold utf8EncodeRune
  rw [if_pos h]

theorem utf8EncodeRune_two {r : Nat} (h1 : 0x80 ≤ r) (h2 : r < 0x800) :
    utf8EncodeRune r = [0xC0 + r / 0x40, 0x80 + r % 0x40] := by
  unfold utf8EncodeRune
  rw [if_neg (by omega), if_pos h2]

theorem utf8EncodeRune_three {r : Nat} (h1 : 0x800 ≤ r) (h2 : r < 0x10000) :
    utf8EncodeRune r =
      [0xE0 + r / 0x1000, 0x80 + r / 0x40 % 0x40, 0x80 + r % 0x40] := by
  unfold utf8EncodeRune
  rw [if_neg (by omega), if_neg (by omega), if_pos h2]

theorem utf8EncodeRune_four {r : Nat} (h1 : 0x10000 ≤ r) :
    utf8EncodeRune r =
      [0xF0 + r / 0x40000, 0x80 + r / 0x1000 % 0x40, 0x80 + r / 0x40 % 0x40,
        0x80 + r % 0x40] := by
  unfold utf8EncodeRune
  rw [if_neg (by omega), if_neg (by omega), if_neg (by omega)]

theorem utf8Step_ascii (b0 : Nat) (t0 : List Nat) (h : b0 < 0x80) :
    utf8Step b0 t0 = ([b0], t0) := by
  unfold utf8Step
  rw [if_pos h]

/-- Decoding inverts encoding at the head of a byte string, for every Unicode
scalar value. -/
theorem utf8Decode_encode (r : Nat) (hv : validRune r = true)
    (rest : List Nat) :
    utf8Decode (utf8EncodeRune r ++ rest) = r :: utf8Decode rest := by
  simp only [validRune, Bool.and_eq_true, Bool.not_eq_true', Bool.and_eq_false_iff,
    decide_eq_true_eq, decide_eq_false_iff_not] at hv
  rcases Nat.lt_or_ge r 0x80 with h80 | h80
  · rw [utf8EncodeRune_ascii h80]
    rw [show ([r] ++ rest) = r :: rest from rfl, utf8Decode_cons]
    rw [utf8Step_ascii _ _ h80]
    rfl
  · rcases Nat.lt_or_ge r 0x800 with h800 | h800
    · rw [utf8EncodeRune_two h80 h800]
      rw [show ([0xC0 + r / 0x40, 0x80 + r % 0x40] ++ rest) =
        (0xC0 + r / 0x40) :: ((0x80 + r % 0x40) :: rest) from rfl,
        utf8Decode_cons]
      have hstep : utf8Step (0xC0 + r / 0x40) ((0x80 + r % 0x40) :: rest) =
          ([r], rest) := by
        unfold utf8Step
        rw [if_neg (by omega),
          if_pos (show (decide (0xC2 ≤ 0xC0 + r / 0x40) &&
            decide (0xC0 + r / 0x40 ≤ 0xDF)) = true by
              simp only [Bool.and_eq_true, decide_eq_true_eq]
              omega)]
        try dsimp only
        rw [if_pos (show isContByte (0x80 + r % 0x40) = true by
          simp only [isContByte, Bool.and_eq_true, decide_eq_true_eq]
          omega)]
        congr 2
        omega
      rw [hstep]
      rfl
    · rcases Nat.lt_or_ge r 0x10000 with h10k | h10k
      · rw [utf8EncodeRune_three h800 h10k]
        rw [show ([0xE0 + r / 0x1000, 0x80 + r / 0x40 % 0x40,
            0x80 + r % 0x40] ++ rest) =
          (0xE0 + r / 0x1000) :: ((0x80 + r / 0x40 % 0x40) ::
            ((0x80 + r % 0x40) :: rest)) from rfl,
          utf8Decode_cons]
        have hsur : ¬(0xD800 ≤ r ∧ r ≤ 0xDFFF) := by omega
        have hstep : utf8Step (0xE0 + r / 0x1000)
            ((0x80 + r / 0x40 % 0x40) :: ((0x80 + r % 0x40) :: rest)) =
            ([r], rest) := by
          unfold utf8Step
          rw [if_neg (by omega),
            if_neg (show ¬(decide (0xC2 ≤ 0xE0 + r / 0x1000) &&
              decide (0xE0 + r / 0x1000 ≤ 0xDF)) = true by
                simp only [Bool.and_eq_true, decide_eq_true_eq]
                omega),
            if_pos (show (decide (0xE0 ≤ 0xE0 + r / 0x1000) &&
              decide (0xE0 + r / 0x1000 ≤ 0xEF)) = true by
                simp only [Bool.and_eq_true, decide_eq_true_eq]
                omega)]
          try dsimp only
          rw [if_pos (show cont3ok (0xE0 + r / 0x1000)
              (0x80 + r / 0x40 % 0x40) = true by
            unfold cont3ok
            split
            · next he =>
              have : r / 0x1000 = 0 := by omega
              simp only [Bool.and_eq_true, decide_eq_true_eq]
              omega
            · split
              · next hne hed =>
                have hd : r / 0x1000 = 0xD := by omega
                simp only [Bool.and_eq_true, decide_eq_true_eq]
                omega
              · simp only [isContByte, Bool.and_eq_true, decide_eq_true_eq]
                omega)]
          try dsimp only
          rw [if_pos (show isContByte (0x80 + r % 0x40) = true by
            simp only [isContByte, Bool.and_eq_true, decide_eq_true_eq]
            omega)]
          congr 2
          omega
        rw [hstep]
        rfl
      · rw [utf8EncodeRune_four h10k]
        rw [show ([0xF0 + r / 0x40000, 0x80 + r / 0x1000 % 0x40,
            0x80 + r / 0x40 % 0x40, 0x80 + r % 0x40] ++ rest) =
          (0xF0 + r / 0x40000) :: ((0x80 + r / 0x1000 % 0x40) ::
            ((0x80 + r / 0x40 % 0x40) :: ((0x80 + r % 0x40) :: rest)))
          from rfl, utf8Decode_cons]
        have hmax : r < 0x110000 := hv.1
        have hstep : utf8Step (0xF0 + r / 0x40000)
            ((0x80 + r / 0x1000 % 0x40) :: ((0x80 + r / 0x40 % 0x40) ::
              ((0x80 + r % 0x40) :: rest))) = ([r], rest) := by
          unfold utf8Step
          rw [if_neg (by omega),
            if_neg (show ¬(decide (0xC2 ≤ 0xF0 + r / 0x40000) &&
              decide (0xF0 + r / 0x40000 ≤ 0xDF)) = true by
                simp only [Bool.and_eq_true, decide_eq_true_eq]
                omega),
            if_neg (show ¬(decide (0xE0 ≤ 0xF0 + r / 0x40000) &&
              decide (0xF0 + r / 0x40000 ≤ 0xEF)) = true by
                simp only [Bool.and_eq_true, decide_eq_true_eq]
                omega),
            if_pos (show (decide (0xF0 ≤ 0xF0 + r / 0x40000) &&
              decide (0xF0 + r / 0x40000 ≤ 0xF4)) = true by
                simp only [Bool.and_eq_true, decide_eq_true_eq]
                omega)]
          try dsimp only
          rw [if_pos (show cont4ok (0xF0 + r / 0x40000)
              (0x80 + r / 0x1000 % 0x40) = true by
            unfold cont4ok
            split
            · next he =>
              have : r / 0x40000 = 0 := by omega
              simp only [Bool.and_eq_true, decide_eq_true_eq]
              omega
            · split
              · next hne he4 =>
                have : r / 0x40000 = 4 := by omega
                simp only [Bool.and_eq_true, decide_eq_true_eq]
                omega
              · simp only [isContByte, Bool.and_eq_true, decide_eq_true_eq]
                omega)]
          try dsimp only
          rw [if_pos (show isContByte (0x80 + r / 0x40 % 0x40) = true by
            simp only [isContByte, Bool.and_eq_true, decide_eq_true_eq]
            omega)]
          try dsimp only
          rw [if_pos (show isContByte (0x80 + r % 0x40) = true by
            simp only [isContByte, Bool.and_eq_true, decide_eq_true_eq]
            omega)]
          congr 2
          omega
        rw [hstep]
        rfl

theorem utf8Step_valid (b0 : Nat) (t0 : List Nat) :
    ∀ r ∈ (utf8Step b0 t0).1, validRune r = true := by
  have hFFFD : validRune 0xFFFD = true := by decide
  unfold utf8Step
  split
  · next h =>
    intro r hr
    simp only [List.mem_singleton] at hr
    subst hr
    simp only [validRune, Bool.and_eq_true, Bool.not_eq_true',
      Bool.and_eq_false_iff, decide_eq_true_eq, decide_eq_false_iff_not]
    omega
  split
  · next h2 =>
    simp only [Bool.and_eq_true, decide_eq_true_eq] at h2
    match t0 with
    | [] => intro r hr; simp only [List.mem_singleton] at hr; subst hr; exact hFFFD
    | b1 :: t1 =>
      try dsimp only
      split
      · next hc =>
        simp only [isContByte, Bool.and_eq_true, decide_eq_true_eq] at hc
        intro r hr
        simp only [List.mem_singleton] at hr
        subst hr
        simp only [validRune, Bool.and_eq_true, Bool.not_eq_true',
          Bool.and_eq_false_iff, decide_eq_true_eq, decide_eq_false_iff_not]
        omega
      · intro r hr; simp only [List.mem_singleton] at hr; subst hr; exact hFFFD
  split
  · next h3 =>
    simp only [Bool.and_eq_true, decide_eq_true_eq] at h3
    match t0 with
    | [] => intro r hr; simp only [List.mem_singleton] at hr; subst hr; exact hFFFD
    | b1 :: t1 =>
      try dsimp only
      split
      · next hc3 =>
        have hb1 : 0x80 ≤ b1 ∧ b1 ≤ 0xBF ∧
            (b0 = 0xE0 → 0xA0 ≤ b1) ∧ (b0 = 0xED → b1 ≤ 0x9F) := by
          unfold cont3ok at hc3
          split at hc3
          · next he =>
            simp only [Bool.and_eq_true, decide_eq_true_eq] at hc3
            omega
          · split at hc3
            · next hne hed =>
              simp only [Bool.and_eq_true, decide_eq_true_eq] at hc3
              omega
            · next hne hned =>
              simp only [isContByte, Bool.and_eq_true, decide_eq_true_eq] at hc3
              omega
        match t1 with
        | [] =>
          intro r hr
          simp only [List.mem_cons, List.mem_singleton, List.not_mem_nil,
            or_false] at hr
          rcases hr with rfl | rfl <;> exact hFFFD
        | b2 :: t2 =>
          try dsimp only
          split
          · next hc2 =>
            simp only [isContByte, Bool.and_eq_true, decide_eq_true_eq] at hc2
            intro r hr
            simp only [List.mem_singleton] at hr
            subst hr
            simp only [validRune, Bool.and_eq_true, Bool.not_eq_true',
              Bool.and_eq_false_iff, decide_eq_true_eq, decide_eq_false_iff_not]
            obtain ⟨hA, hB, hE0, hED⟩ := hb1
            constructor
            · omega
            · by_cases hed : b0 = 0xED
              · subst hed
                left
                have := hED rfl
                omega
              · rcases Nat.lt_or_ge b0 0xED with hlt | hge
                · left
                  omega
                · right
                  omega
          · intro r hr
            simp only [List.mem_cons, List.mem_singleton, List.not_mem_nil,
              or_false] at hr
            rcases hr with rfl | rfl <;> exact hFFFD
      · intro r hr; simp only [List.mem_singleton] at hr; subst hr; exact hFFFD
  split
  · next h4 =>
    simp only [Bool.and_eq_true, decide_eq_true_eq] at h4
    match t0 with
    | [] => intro r hr; simp only [List.mem_singleton] at hr; subst hr; exact hFFFD
    | b1 :: t1 =>
      try dsimp only
      split
      · next hc4 =>
        have hb1 : 0x80 ≤ b1 ∧ b1 ≤ 0xBF ∧
            (b0 = 0xF0 → 0x90 ≤ b1) ∧ (b0 = 0xF4 → b1 ≤ 0x8F) := by
          unfold cont4ok at hc4
          split at hc4
          · next he =>
            simp only [Bool.and_eq_true, decide_eq_true_eq] at hc4
            omega
          · split at hc4
            · next hne he4 =>
              simp only [Bool.and_eq_true, decide_eq_true_eq] at hc4
              omega
            · next hne hne4 =>
              simp only [isContByte, Bool.and_eq_true, decide_eq_true_eq] at hc4
              omega
        match t1 with
        | [] =>
          intro r hr
          simp only [List.mem_cons, List.mem_singleton, List.not_mem_nil,
            or_false] at hr
          rcases hr with rfl | rfl <;> exact hFFFD
        | b2 :: t2 =>
          try dsimp only
          split
          · next hc2 =>
            simp only [isContByte, Bool.and_eq_true, decide_eq_true_eq] at hc2
            match t2 with
            | [] =>
              intro r hr
              simp only [List.mem_cons, List.mem_singleton, List.not_mem_nil,
                or_false] at hr
              rcases hr with rfl | rfl | rfl <;> exact hFFFD
            | b3 :: t3 =>
              try dsimp only
              split
              · next hc3 =>
                simp only [isContByte, Bool.and_eq_true, decide_eq_true_eq] at hc3
                intro r hr
                simp only [List.mem_singleton] at hr
                subst hr
                simp only [validRune, Bool.and_eq_true, Bool.not_eq_true',
                  Bool.and_eq_false_iff, decide_eq_true_eq,
                  decide_eq_false_iff_not]
                obtain ⟨hA, hB, hF0, hF4⟩ := hb1
                constructor
                · by_cases hf4 : b0 = 0xF4
                  · subst hf4
                    have := hF4 rfl
                    omega
                  · omega
                · right
                  by_cases hf0 : b0 = 0xF0
                  · subst hf0
                    have := hF0 rfl
                    omega
                  · omega
              · intro r hr
                simp only [List.mem_cons, List.mem_singleton, List.not_mem_nil,
                  or_false] at hr
                rcases hr with rfl | rfl | rfl <;> exact hFFFD
          · intro r hr
            simp only [List.mem_cons, List.mem_singleton, List.not_mem_nil,
              or_false] at hr
            rcases hr with rfl | rfl <;> exact hFFFD
      · intro r hr; simp only [List.mem_singleton] at hr; subst hr; exact hFFFD
  · intro r hr; simp only [List.mem_singleton] at hr; subst hr; exact hFFFD

theorem utf8DecodeFuel_valid :
    ∀ fuel s r, r ∈ utf8DecodeFuel fuel s → validRune r = true := by
  intro fuel
  induction fuel with
  | zero => intro s r hr; exact absurd hr (by simp [utf8DecodeFuel])
  | succ fuel ih =>
    intro s r hr
    match s with
    | [] => exact absurd hr (by simp [utf8DecodeFuel])
    | b0 :: t0 =>
      simp only [utf8DecodeFuel, List.mem_append] at hr
      rcases hr with hr | hr
      · exact utf8Step_valid b0 t0 r hr
      · exact ih _ r hr

theorem utf8Decode_valid {s : List Nat} {r : Nat} (h : r ∈ utf8Decode s) :
    validRune r = true :=
  utf8DecodeFuel_valid _ _ _ h

theorem utf8Decode_flatMap_encode (rs : List Nat)
    (hv : ∀ r ∈ rs, validRune r = true) :
    utf8Decode (rs.flatMap utf8EncodeRune) = rs := by
  induction rs with
  | nil => rfl
  | cons r rest ih =>
    rw [List.flatMap_cons, utf8Decode_encode r (hv r (List.mem_cons_self _ _)),
      ih (fun x hx => hv x (List.mem_cons_of_mem _ hx))]

/-- Go `unicode.IsSpace`: the White_Space code points. -/
def goIsSpace (r : Nat) : Bool :=
  decide (9 ≤ r ∧ r ≤ 13) || decide (r = 32) || decide (r = 0x85) ||
    decide (r = 0xA0) || decide (r = 0x1680) ||
    decide (0x2000 ≤ r ∧ r ≤ 0x200A) || decide (r = 0x2028) ||
    decide (r = 0x2029) || decide (r = 0x202F) || decide (r = 0x205F) ||
    decide (r = 0x3000)

/-- Leading and trailing space runes removed. -/
def trimSpaceRunes (rs : List Nat) : List Nat :=
  (((rs.dropWhile goIsSpace).reverse).dropWhile goIsSpace).reverse

/-- Go `strings.TrimSpace`.  Go returns the subslice of `s` with leading and
trailing space runes removed; every string `parseSize` trims is a valid UTF-8
encoding (the output of `strings.ToUpper`, or that output with trailing ASCII
bytes and trailing space runes removed), and on those the subslice equals the
re-encoding of the rune-level trim used here. -/
def goTrimSpace (s : List Nat) : List Nat :=
  (trimSpaceRunes (utf8Decode s)).flatMap utf8EncodeRune

/-- Suffix scan of `parseSize`: try `GB`, `MB`, `KB`, `B` in order; on the
first match, trim the suffix (Go `strings.TrimSuffix`, i.e. drop that many
final bytes) and trim space again, recording the scale. -/
def sizeSuffixSplit (text : List Nat) : List Nat × Int :=
  if List.isSuffixOf [71, 66] text then
    (goTrimSpace (text.take (text.length - 2)), 1073741824)
  else if List.isSuffixOf [77, 66] text then
    (goTrimSpace (text.take (text.length - 2)), 1048576)
  else if List.isSuffixOf [75, 66] text then
    (goTrimSpace (text.take (text.length - 2)), 1024)
  else if List.isSuffixOf [66] text then
    (goTrimSpace (text.take (text.length - 1)), 1)
  else (text, 1)

/-- ASCII decimal digit byte. -/
def isDigitByte (b : Nat) : Bool :=
  decide (48 ≤ b) && decide (b ≤ 57)

/-- Value of a run of ASCII digit bytes. -/
def digitsVal (ds : List Nat) : Nat :=
  ds.foldl (fun acc d => acc * 10 + (d - 48)) 0

/-- Modelled from the spec: Go `strconv.ParseInt(s, 10, 64)` as `parseSize`
consumes it — optional sign, non-empty run of decimal digits, `int64` range.
Go's incremental cutoff check is extensionally this final range test, and
`parseSize` only distinguishes `err != nil`. -/
def goParseInt64 (s : List Nat) : Except Unit Int :=
  match s with
  | [] => .error ()
  | b :: rest =>
    let digits := if b = 43 ∨ b = 45 then rest else s
    if digits = [] then .error ()
    else if digits.all isDigitByte then
      if b = 45 then
        if digitsVal digits ≤ 2 ^ 63 then .ok (-(digitsVal digits : Int))
        else .error ()
      else
        if digitsVal digits ≤ 2 ^ 63 - 1 then .ok ((digitsVal digits : Int))
        else .error ()
    else .error ()

/-- Reduction of a mathematical integer into Go's `int64` (two's complement
wrap-around), modelling Go's `value * multiplier` on `int64`. -/
def int64Wrap (x : Int) : Int :=
  (x + 2 ^ 63) % 2 ^ 64 - 2 ^ 63

/-- Size parser (`main.go` `parseSize`): uppercase and trim, empty means "no
limit" (0), strip at most one size suffix, parse the decimal value, reject
parse errors and negative values, and scale. -/
def parseSize (input : List Nat) : Except Unit Int :=
  let text := goTrimSpace (goToUpper input)
  if text = [] then .ok 0
  else
    let split := sizeSuffixSplit text
    match goParseInt64 split.1 with
    | .error _ => .error ()
    | .ok value =>
      if value < 0 then .error () else .ok (int64Wrap (value * split.2))

theorem utf8EncodeRune_ne_nil (r : Nat) : utf8EncodeRune r ≠ [] := by
  unfold utf8EncodeRune
  split
  · simp
  split
  · simp
  split
  · simp
  · simp

theorem utf8EncodeRune_last_nonascii {r : Nat} (h : 0x80 ≤ r) :
    ∃ pre, utf8EncodeRune r = pre ++ [0x80 + r % 0x40] := by
  unfold utf8EncodeRune
  rw [if_neg (by omega)]
  split
  · exact ⟨[0xC0 + r / 0x40], rfl⟩
  split
  · exact ⟨[0xE0 + r / 0x1000, 0x80 + r / 0x40 % 0x40], rfl⟩
  · exact ⟨[0xF0 + r / 0x40000, 0x80 + r / 0x1000 % 0x40,
      0x80 + r / 0x40 % 0x40], rfl⟩

theorem suffix_singleton_concat {a r : Nat} {E : List Nat} :
    ([a] <:+ E ++ [r]) ↔ a = r := by
  constructor
  · intro h
    have h2 : ([a] : List Nat).reverse <+: (E ++ [r]).reverse :=
      List.reverse_prefix.mpr h
    rw [List.reverse_concat] at h2
    simp only [List.reverse_singleton] at h2
    exact (List.cons_prefix_cons.mp h2).1
  · rintro rfl
    exact ⟨E, rfl⟩

theorem suffix_pair_concat {a b r : Nat} {E : List Nat} :
    ([a, b] <:+ E ++ [r]) ↔ b = r ∧ [a] <:+ E := by
  constructor
  · intro h
    have h2 : ([a, b] : List Nat).reverse <+: (E ++ [r]).reverse :=
      List.reverse_prefix.mpr h
    rw [List.reverse_concat] at h2
    have h3 := List.cons_prefix_cons.mp (by simpa using h2)
    refine ⟨h3.1, ?_⟩
    have h4 : ([a] : List Nat).reverse <+: E.reverse := by simpa using h3.2
    exact List.reverse_prefix.mp h4
  · rintro ⟨rfl, hsuf⟩
    obtain ⟨t, rfl⟩ := hsuf
    exact ⟨t, by simp⟩

theorem encodeAll_singleton_suffix {rs : List Nat} {a : Nat} (ha : a < 0x80) :
    ([a] <:+ rs.flatMap utf8EncodeRune) ↔ ∃ rs', rs = rs' ++ [a] := by
  rcases List.eq_nil_or_concat rs with rfl | ⟨rs0, r, rfl⟩
  · simp only [List.flatMap_nil]
    constructor
    · intro h
      exact absurd (List.eq_nil_of_suffix_nil h) (by simp)
    · rintro ⟨rs', h⟩
      exact absurd h (by simp)
  · rw [List.concat_eq_append, List.flatMap_append]
    simp only [List.flatMap_cons, List.flatMap_nil, List.append_nil]
    rcases Nat.lt_or_ge r 0x80 with hr | hr
    · rw [utf8EncodeRune_ascii hr, suffix_singleton_concat]
      constructor
      · rintro rfl
        exact ⟨rs0, rfl⟩
      · rintro ⟨rs', h⟩
        have := List.concat_inj.mp
          (by simpa [List.concat_eq_append] using h)
        exact this.2.symm
    · obtain ⟨pre, hpre⟩ := utf8EncodeRune_last_nonascii hr
      rw [hpre, ← List.append_assoc, suffix_singleton_concat]
      constructor
      · intro h
        omega
      · rintro ⟨rs', h⟩
        have := List.concat_inj.mp
          (by simpa [List.concat_eq_append] using h)
        omega

theorem encodeAll_pair_suffix {rs : List Nat} {a b : Nat} (ha : a < 0x80)
    (hb : b < 0x80) :
    ([a, b] <:+ rs.flatMap utf8EncodeRune) ↔ ∃ rs', rs = rs' ++ [a, b] := by
  rcases List.eq_nil_or_concat rs with rfl | ⟨rs0, r, rfl⟩
  · simp only [List.flatMap_nil]
    constructor
    · intro h
      exact absurd (List.eq_nil_of_suffix_nil h) (by simp)
    · rintro ⟨rs', h⟩
      exact absurd h (by simp)
  · rw [List.concat_eq_append, List.flatMap_append]
    simp only [List.flatMap_cons, List.flatMap_nil, List.append_nil]
    rcases Nat.lt_or_ge r 0x80 with hr | hr
    · rw [utf8EncodeRune_ascii hr, suffix_pair_concat,
        encodeAll_singleton_suffix ha]
      constructor
      · rintro ⟨rfl, rs', rfl⟩
        exact ⟨rs', by simp⟩
      · rintro ⟨rs', h⟩
        have h2 : rs0 ++ [r] = (rs' ++ [a]) ++ [b] := by
          rw [h, List.append_assoc]
          rfl
        obtain ⟨h3, h4⟩ := List.append_inj' h2 rfl
        have hrb : r = b := by simpa using h4
        exact ⟨hrb.symm, h3 ▸ ⟨rs', rfl⟩⟩
    · obtain ⟨pre, hpre⟩ := utf8EncodeRune_last_nonascii hr
      rw [hpre, ← List.append_assoc, suffix_pair_concat]
      constructor
      · intro h
        omega
      · rintro ⟨rs', h⟩
        have h2 : rs0 ++ [r] = (rs' ++ [a]) ++ [b] := by
          rw [h, List.append_assoc]
          rfl
        obtain ⟨h3, h4⟩ := List.append_inj' h2 rfl
        have hrb : r = b := by simpa using h4
        omega

theorem trimSpaceRunes_nil_of_allSpace {rs : List Nat}
    (h : ∀ r ∈ rs, goIsSpace r = true) : trimSpaceRunes rs = [] := by
  unfold trimSpaceRunes
  rw [List.dropWhile_eq_nil_iff.mpr h]
  rfl

theorem allSpace_of_trimSpaceRunes_nil {rs : List Nat}
    (h : trimSpaceRunes rs = []) : ∀ r ∈ rs, goIsSpace r = true := by
  unfold trimSpaceRunes at h
  rw [List.reverse_eq_nil_iff] at h
  have h2 : ∀ x ∈ (rs.dropWhile goIsSpace).reverse, goIsSpace x = true :=
    List.dropWhile_eq_nil_iff.mp h
  have h3 : ∀ x ∈ rs.dropWhile goIsSpace, goIsSpace x = true := by
    intro x hx
    exact h2 x (List.mem_reverse.mpr hx)
  intro r hr
  rw [← List.takeWhile_append_dropWhile goIsSpace rs] at hr
  rcases List.mem_append.mp hr with hx | hx
  · exact List.mem_takeWhile_imp hx
  · exact h3 r hx

theorem dropWhile_eq_self_of_head {p : Nat → Bool} {l : List Nat}
    (h : ∀ x, l.head? = some x → p x = false) : l.dropWhile p = l := by
  cases l with
  | nil => rfl
  | cons c t =>
    rw [List.dropWhile_cons, if_neg (by rw [h c rfl]; simp)]

theorem trimSpaceRunes_exact {w1 w3 core : List Nat}
    (hw1 : ∀ r ∈ w1, goIsSpace r = true) (hw3 : ∀ r ∈ w3, goIsSpace r = true)
    (hne : core ≠ [])
    (hhead : ∀ h, core.head? = some h → goIsSpace h = false)
    (hlast : ∀ h, core.getLast? = some h → goIsSpace h = false) :
    trimSpaceRunes (w1 ++ core ++ w3) = core := by
  unfold trimSpaceRunes
  have s1 : List.dropWhile goIsSpace (w1 ++ core ++ w3) = core ++ w3 := by
    rw [List.append_assoc, List.dropWhile_append,
      if_pos (by rw [List.dropWhile_eq_nil_iff.mpr hw1]; rfl)]
    apply dropWhile_eq_self_of_head
    intro x hx
    apply hhead
    rw [List.head?_append] at hx
    rcases hcore : core.head? with _ | y
    · rw [List.head?_eq_none_iff] at hcore
      exact absurd hcore hne
    · rw [hcore] at hx
      simp only [Option.or_some] at hx
      exact hx
  rw [s1, List.reverse_append]
  have s2 : List.dropWhile goIsSpace (w3.reverse ++ core.reverse) =
      core.reverse := by
    rw [List.dropWhile_append,
      if_pos (by
        rw [List.dropWhile_eq_nil_iff.mpr
          (fun x hx => hw3 x (List.mem_reverse.mp hx))]
        rfl)]
    apply dropWhile_eq_self_of_head
    intro x hx
    rw [List.head?_reverse] at hx
    exact hlast x hx
  rw [s2, List.reverse_reverse]

theorem trimSpaceRunes_split (rs : List Nat) :
    ∃ w1 w3, (∀ r ∈ w1, goIsSpace r = true) ∧
      (∀ r ∈ w3, goIsSpace r = true) ∧
      rs = w1 ++ trimSpaceRunes rs ++ w3 := by
  refine ⟨rs.takeWhile goIsSpace,
    ((rs.dropWhile goIsSpace).reverse.takeWhile goIsSpace).reverse,
    fun r hr => List.mem_takeWhile_imp hr,
    fun r hr => List.mem_takeWhile_imp (List.mem_reverse.mp hr), ?_⟩
  conv_lhs => rw [← List.takeWhile_append_dropWhile goIsSpace rs]
  rw [List.append_assoc]
  congr 1
  unfold trimSpaceRunes
  conv_lhs => rw [← List.reverse_reverse (rs.dropWhile goIsSpace),
    ← List.takeWhile_append_dropWhile goIsSpace
      (rs.dropWhile goIsSpace).reverse]
  rw [List.reverse_append]

theorem goToUpperRune_valid {r : Nat} (h : validRune r = true) :
    validRune (goToUpperRune r) = true := by
  simp only [validRune, Bool.and_eq_true, Bool.not_eq_true',
    Bool.and_eq_false_iff, decide_eq_true_eq, decide_eq_false_iff_not] at h ⊢
  unfold goToUpperRune
  split
  · next hb =>
    simp only [Bool.and_eq_true, decide_eq_true_eq] at hb
    omega
  · exact h

theorem goIsSpace_goToUpperRune (r : Nat) :
    goIsSpace (goToUpperRune r) = goIsSpace r := by
  unfold goToUpperRune
  split
  · next hb =>
    simp only [Bool.and_eq_true, decide_eq_true_eq] at hb
    have h1 : goIsSpace (r - 0x20) = false := by
      simp only [goIsSpace, Bool.or_eq_false_iff, decide_eq_false_iff_not]
      omega
    have h2 : goIsSpace r = false := by
      simp only [goIsSpace, Bool.or_eq_false_iff, decide_eq_false_iff_not]
      omega
    rw [h1, h2]
  · rfl

theorem goToUpperRune_eq_of_not_upper {r x : Nat} (hx : ¬(0x41 ≤ x ∧ x ≤ 0x5A))
    (h : goToUpperRune r = x) : r = x := by
  unfold goToUpperRune at h
  split at h
  · next hb =>
    simp only [Bool.and_eq_true, decide_eq_true_eq] at hb
    omega
  · exact h

theorem goToUpperRune_eq_of_upper {r x : Nat} (hx : 0x41 ≤ x ∧ x ≤ 0x5A)
    (h : goToUpperRune r = x) : r = x ∨ r = x + 0x20 := by
  unfold goToUpperRune at h
  split at h
  · next hb =>
    simp only [Bool.and_eq_true, decide_eq_true_eq] at hb
    omega
  · exact Or.inl h

theorem goToUpper_eq_map (s : List Nat) :
    goToUpper s = ((utf8Decode s).map goToUpperRune).flatMap utf8EncodeRune :=
  (List.flatMap_map _ _ _).symm

theorem parseSize_text (input : List Nat) :
    goTrimSpace (goToUpper input) =
      (trimSpaceRunes ((utf8Decode input).map goToUpperRune)).flatMap
        utf8EncodeRune := by
  unfold goTrimSpace
  rw [goToUpper_eq_map, utf8Decode_flatMap_encode]
  intro r hr
  obtain ⟨r0, hr0, rfl⟩ := List.mem_map.mp hr
  exact goToUpperRune_valid (utf8Decode_valid hr0)

theorem encodeAll_nil_iff (rs : List Nat) :
    rs.flatMap utf8EncodeRune = [] ↔ rs = [] := by
  constructor
  · intro h
    cases rs with
    | nil => rfl
    | cons r rest =>
      rw [List.flatMap_cons] at h
      exact absurd (List.append_eq_nil.mp h).1 (utf8EncodeRune_ne_nil r)
  · rintro rfl
    rfl

theorem encodeAll_ascii (rs : List Nat) (h : ∀ r ∈ rs, r < 0x80) :
    rs.flatMap utf8EncodeRune = rs := by
  induction rs with
  | nil => rfl
  | cons r rest ih =>
    rw [List.flatMap_cons, utf8EncodeRune_ascii (h r (List.mem_cons_self _ _)),
      ih (fun x hx => h x (List.mem_cons_of_mem _ hx))]
    rfl

theorem utf8EncodeRune_head_nonascii {r : Nat} (h : 0x80 ≤ r) :
    ∃ c cs, utf8EncodeRune r = c :: cs ∧ 0x80 ≤ c := by
  unfold utf8EncodeRune
  rw [if_neg (by omega)]
  split
  · exact ⟨_, _, rfl, by omega⟩
  split
  · exact ⟨_, _, rfl, by omega⟩
  · exact ⟨_, _, rfl, by omega⟩

theorem encodeAll_ascii_of_allASCII (rs : List Nat)
    (h : allASCII (rs.flatMap utf8EncodeRune) = true) :
    rs.flatMap utf8EncodeRune = rs ∧ ∀ r ∈ rs, r < 0x80 := by
  induction rs with
  | nil => exact ⟨rfl, by simp⟩
  | cons r rest ih =>
    rw [List.flatMap_cons] at h ⊢
    simp only [allASCII, List.all_append, Bool.and_eq_true] at h
    have hr : r < 0x80 := by
      by_contra hge
      obtain ⟨c, cs, hc, hcge⟩ := utf8EncodeRune_head_nonascii (Nat.le_of_not_lt hge)
      rw [hc] at h
      simp only [List.all_cons, Bool.and_eq_true, decide_eq_true_eq] at h
      omega
    obtain ⟨h1, h2⟩ := ih (by simp only [allASCII]; exact h.2)
    rw [utf8EncodeRune_ascii hr, h1]
    refine ⟨rfl, ?_⟩
    intro x hx
    rcases List.mem_cons.mp hx with rfl | hx
    · exact hr
    · exact h2 x hx

/-- Scale associated with each (case-insensitive) size-suffix spelling. -/
def sufScaleVariant (suf : List Nat) (scale : Int) : Prop :=
  (suf = [] ∧ scale = 1) ∨
  ((suf = [66] ∨ suf = [98]) ∧ scale = 1) ∨
  ((suf = [75, 66] ∨ suf = [75, 98] ∨ suf = [107, 66] ∨ suf = [107, 98]) ∧
    scale = 1024) ∨
  ((suf = [77, 66] ∨ suf = [77, 98] ∨ suf = [109, 66] ∨ suf = [109, 98]) ∧
    scale = 1048576) ∨
  ((suf = [71, 66] ∨ suf = [71, 98] ∨ suf = [103, 66] ∨ suf = [103, 98]) ∧
    scale = 1073741824)

/-- Well-formed size strings, per the spec: optional surrounding white space,
an optional sign, a non-empty run of decimal digits whose value fits in
`int64` (non-negative unless zero), optional white space, and an optional
case-insensitive suffix `B`/`KB`/`MB`/`GB`, read at the rune level of the
input. -/
def sizeWellFormed (input : List Nat) (v : Nat) (scale : Int) : Prop :=
  ∃ w1 sgn ds w2 suf w3,
    utf8Decode input = w1 ++ sgn ++ ds ++ w2 ++ suf ++ w3 ∧
    (∀ r ∈ w1, goIsSpace r = true) ∧
    (sgn = [] ∨ sgn = [43] ∨ sgn = [45]) ∧
    ds ≠ [] ∧ (∀ d ∈ ds, isDigitByte d = true) ∧
    (∀ r ∈ w2, goIsSpace r = true) ∧
    sufScaleVariant suf scale ∧
    (∀ r ∈ w3, goIsSpace r = true) ∧
    v = digitsVal ds ∧ (sgn = [45] → digitsVal ds = 0) ∧
    digitsVal ds ≤ 2 ^ 63 - 1

theorem goParseInt64_shape (sgn ds : List Nat)
    (hsgn : sgn = [] ∨ sgn = [43] ∨ sgn = [45]) (hne : ds ≠ [])
    (hds : ∀ d ∈ ds, isDigitByte d = true)
    (hb : digitsVal ds ≤ 2 ^ 63 - 1) :
    goParseInt64 (sgn ++ ds) =
      .ok (if sgn = [45] then -(digitsVal ds : Int)
        else (digitsVal ds : Int)) := by
  rcases hsgn with rfl | rfl | rfl
  · match ds, hne, hds, hb with
    | d :: rest, _, hds, hb =>
      have hd : isDigitByte d = true := hds d (List.mem_cons_self _ _)
      simp only [isDigitByte, Bool.and_eq_true, decide_eq_true_eq] at hd
      simp only [List.nil_append, goParseInt64]
      rw [if_neg (show ¬(d = 43 ∨ d = 45) by omega),
        if_neg (show ¬(d :: rest = []) by simp),
        if_pos (show (d :: rest).all isDigitByte = true by
          simp only [List.all_eq_true]; exact hds),
        if_neg (show ¬(d = 45) by omega), if_pos hb]
      simp
  · simp only [List.cons_append, List.nil_append, goParseInt64]
    rw [if_pos (Or.inl trivial), if_neg hne,
      if_pos (show ds.all isDigitByte = true by
        simp only [List.all_eq_true]; exact hds),
      if_neg (show ¬((43 : Nat) = 45) by norm_num), if_pos hb]
    simp
  · simp only [List.cons_append, List.nil_append, goParseInt64]
    rw [if_pos (Or.inr trivial), if_neg hne,
      if_pos (show ds.all isDigitByte = true by
        simp only [List.all_eq_true]; exact hds),
      if_pos trivial, if_pos (show digitsVal ds ≤ 2 ^ 63 by omega)]
    simp

theorem goParseInt64_ok_shape {bs : List Nat} {value : Int}
    (h : goParseInt64 bs = .ok value) :
    ∃ sgn ds, bs = sgn ++ ds ∧ (sgn = [] ∨ sgn = [43] ∨ sgn = [45]) ∧
      ds ≠ [] ∧ (∀ d ∈ ds, isDigitByte d = true) ∧
      ((sgn = [45] ∧ value = -(digitsVal ds : Int) ∧ digitsVal ds ≤ 2 ^ 63) ∨
        (sgn ≠ [45] ∧ value = (digitsVal ds : Int) ∧
          digitsVal ds ≤ 2 ^ 63 - 1)) := by
  match bs with
  | [] => exact absurd h (by simp [goParseInt64])
  | b :: rest =>
    simp only [goParseInt64] at h
    by_cases hb : b = 43 ∨ b = 45
    · rw [if_pos hb] at h
      split at h
      · exact absurd h (by simp)
      · next hrest =>
        split at h
        · next hall =>
          by_cases hb45 : b = 45
          · rw [if_pos hb45] at h
            split at h
            · next hbound =>
              refine ⟨[45], rest, by rw [hb45]; rfl, by simp, hrest,
                by simpa only [List.all_eq_true] using hall, ?_⟩
              left
              cases h
              exact ⟨rfl, rfl, hbound⟩
            · exact absurd h (by simp)
          · rw [if_neg hb45] at h
            split at h
            · next hbound =>
              have hb43 : b = 43 := by tauto
              refine ⟨[43], rest, by rw [hb43]; rfl, by simp, hrest,
                by simpa only [List.all_eq_true] using hall, ?_⟩
              right
              cases h
              exact ⟨by simp, rfl, hbound⟩
            · exact absurd h (by simp)
        · exact absurd h (by simp)
    · rw [if_neg hb] at h
      split at h
      · exact absurd h (by simp)
      · split at h
        · next hall =>
          push_neg at hb
          rw [if_neg hb.2] at h
          split at h
          · next hbound =>
            refine ⟨[], b :: rest, rfl, by simp, by simp,
              by simpa only [List.all_eq_true] using hall, ?_⟩
            right
            cases h
            exact ⟨by simp, rfl, hbound⟩
          · exact absurd h (by simp)
        · exact absurd h (by simp)

theorem goToUpperRune_eq_self {r : Nat} (h : ¬(0x61 ≤ r ∧ r ≤ 0x7A)) :
    goToUpperRune r = r := by
  unfold goToUpperRune
  rw [if_neg (by simpa using h)]

theorem digit_not_space {d : Nat} (h : isDigitByte d = true) :
    goIsSpace d = false := by
  simp only [isDigitByte, Bool.and_eq_true, decide_eq_true_eq] at h
  simp only [goIsSpace, Bool.or_eq_false_iff, decide_eq_false_iff_not]
  omega

theorem space_not_upperrange {r : Nat} (h : goIsSpace r = true) :
    ¬(0x41 ≤ r ∧ r ≤ 0x5A) := by
  simp only [goIsSpace, Bool.or_eq_true, decide_eq_true_eq] at h
  omega

theorem map_goToUpperRune_fix {L : List Nat}
    (h : ∀ x ∈ L, ¬(0x41 ≤ x ∧ x ≤ 0x5A)) :
    ∀ u, u.map goToUpperRune = L → u = L := by
  induction L with
  | nil =>
    intro u hu
    exact List.map_eq_nil_iff.mp hu
  | cons y L' ih =>
    intro u hu
    cases u with
    | nil => exact absurd hu (by simp)
    | cons x u' =>
      rw [List.map_cons, List.cons_eq_cons] at hu
      have hx : x = y :=
        goToUpperRune_eq_of_not_upper (h y (List.mem_cons_self _ _)) hu.1
      rw [hx, ih (fun z hz => h z (List.mem_cons_of_mem _ hz)) u' hu.2]

theorem map_upper_single {u : List Nat} {a : Nat}
    (h : u.map goToUpperRune = [a]) : u = [a] ∨ u = [a + 0x20] := by
  cases u with
  | nil => exact absurd h (by simp)
  | cons x u' =>
    rw [List.map_cons, List.cons_eq_cons] at h
    have hu' : u' = [] := List.map_eq_nil_iff.mp h.2
    rcases Classical.em (0x41 ≤ a ∧ a ≤ 0x5A) with ha | ha
    · rcases goToUpperRune_eq_of_upper ha h.1 with rfl | rfl
      · exact Or.inl (by rw [hu'])
      · exact Or.inr (by rw [hu'])
    · rw [goToUpperRune_eq_of_not_upper ha h.1, hu']
      exact Or.inl rfl

theorem map_upper_pair {u : List Nat} {a b : Nat}
    (h : u.map goToUpperRune = [a, b]) :
    u = [a, b] ∨ u = [a, b + 0x20] ∨ u = [a + 0x20, b] ∨
      u = [a + 0x20, b + 0x20] := by
  cases u with
  | nil => exact absurd h (by simp)
  | cons x u' =>
    rw [List.map_cons, List.cons_eq_cons] at h
    rcases map_upper_single h.2 with rfl | rfl
    all_goals {
      rcases Classical.em (0x41 ≤ a ∧ a ≤ 0x5A) with ha | ha
      · rcases goToUpperRune_eq_of_upper ha h.1 with rfl | rfl
        · tauto
        · tauto
      · rw [goToUpperRune_eq_of_not_upper ha h.1]
        tauto
    }

theorem goTrimSpace_encodeAll {rs : List Nat}
    (hv : ∀ r ∈ rs, validRune r = true) :
    goTrimSpace (rs.flatMap utf8EncodeRune) =
      (trimSpaceRunes rs).flatMap utf8EncodeRune := by
  unfold goTrimSpace
  rw [utf8Decode_flatMap_encode rs hv]

theorem mem_trimSpaceRunes {x : Nat} {rs : List Nat}
    (h : x ∈ trimSpaceRunes rs) : x ∈ rs := by
  unfold trimSpaceRunes at h
  rw [List.mem_reverse] at h
  have h2 := (List.dropWhile_suffix goIsSpace).subset h
  rw [List.mem_reverse] at h2
  exact (List.dropWhile_suffix goIsSpace).subset h2

theorem sgn_ds_head {sgn ds rest : List Nat}
    (hsgn : sgn = [] ∨ sgn = [43] ∨ sgn = [45]) (hne : ds ≠ [])
    (hds : ∀ d ∈ ds, isDigitByte d = true) :
    ∀ h, (sgn ++ (ds ++ rest)).head? = some h → goIsSpace h = false := by
  intro h hh
  rcases hsgn with rfl | rfl | rfl
  · rw [List.nil_append] at hh
    cases ds with
    | nil => exact absurd rfl hne
    | cons d ds' =>
      rw [List.cons_append, List.head?_cons, Option.some_inj] at hh
      exact hh ▸ digit_not_space (hds d (List.mem_cons_self _ _))
  · rw [List.cons_append, List.head?_cons, Option.some_inj] at hh
    rw [← hh]
    decide
  · rw [List.cons_append, List.head?_cons, Option.some_inj] at hh
    rw [← hh]
    decide

theorem sgn_ds_last {sgn ds : List Nat} (hne : ds ≠ [])
    (hds : ∀ d ∈ ds, isDigitByte d = true) :
    ∀ h, (sgn ++ ds).getLast? = some h → goIsSpace h = false := by
  intro h hh
  rcases List.eq_nil_or_concat ds with rfl | ⟨ds0, d, rfl⟩
  · exact absurd rfl hne
  · rw [List.concat_eq_append, ← List.append_assoc, List.getLast?_concat,
      Option.some_inj] at hh
    exact hh ▸ digit_not_space (hds d (by simp))

theorem trim_sgn_ds {w1 sgn ds wrest : List Nat}
    (hw1 : ∀ r ∈ w1, goIsSpace r = true)
    (hwrest : ∀ r ∈ wrest, goIsSpace r = true)
    (hsgn : sgn = [] ∨ sgn = [43] ∨ sgn = [45]) (hne : ds ≠ [])
    (hds : ∀ d ∈ ds, isDigitByte d = true) :
    trimSpaceRunes (w1 ++ (sgn ++ ds) ++ wrest) = sgn ++ ds := by
  apply trimSpaceRunes_exact hw1 hwrest
  · intro hc
    exact hne (List.append_eq_nil.mp hc).2
  · intro h hh
    exact @sgn_ds_head sgn ds [] hsgn hne hds h
      (by rw [List.append_nil]; exact hh)
  · exact sgn_ds_last hne hds

theorem parseSize_tail (sgn ds : List Nat) (scale : Int)
    (hsgn : sgn = [] ∨ sgn = [43] ∨ sgn = [45]) (hne : ds ≠ [])
    (hds : ∀ d ∈ ds, isDigitByte d = true)
    (hneg : sgn = [45] → digitsVal ds = 0)
    (hb : digitsVal ds ≤ 2 ^ 63 - 1) :
    (match goParseInt64 (sgn ++ ds) with
      | .error _ => (.error () : Except Unit Int)
      | .ok value =>
        if value < 0 then .error () else .ok (int64Wrap (value * scale))) =
      .ok (int64Wrap ((digitsVal ds : Int) * scale)) := by
  rw [goParseInt64_shape sgn ds hsgn hne hds hb]
  by_cases h45 : sgn = [45]
  · rw [if_pos h45, hneg h45]
    norm_num
  · rw [if_neg h45]
    try dsimp only
    rw [if_neg (show ¬((digitsVal ds : Int) < 0) from
      not_lt.mpr (Int.natCast_nonneg _))]

theorem space_not_lower {r : Nat} (h : goIsSpace r = true) :
    ¬(0x61 ≤ r ∧ r ≤ 0x7A) := by
  simp only [goIsSpace, Bool.or_eq_true, decide_eq_true_eq] at h
  omega

theorem digit_not_lower {d : Nat} (h : isDigitByte d = true) :
    ¬(0x61 ≤ d ∧ d ≤ 0x7A) := by
  simp only [isDigitByte, Bool.and_eq_true, decide_eq_true_eq] at h
  omega

theorem digit_ascii {d : Nat} (h : isDigitByte d = true) : d < 0x80 := by
  simp only [isDigitByte, Bool.and_eq_true, decide_eq_true_eq] at h
  omega

theorem validRune_ascii {r : Nat} (h : r < 0x80) : validRune r = true := by
  simp only [validRune, Bool.and_eq_true, Bool.not_eq_true',
    Bool.and_eq_false_iff, decide_eq_true_eq, decide_eq_false_iff_not]
  omega

theorem map_upper_id {L : List Nat} (h : ∀ x ∈ L, ¬(0x61 ≤ x ∧ x ≤ 0x7A)) :
    L.map goToUpperRune = L := by
  induction L with
  | nil => rfl
  | cons x L' ih =>
    rw [List.map_cons, goToUpperRune_eq_self (h x (List.mem_cons_self _ _)),
      ih (fun z hz => h z (List.mem_cons_of_mem _ hz))]

theorem sgn_ds_ascii {sgn ds : List Nat}
    (hsgn : sgn = [] ∨ sgn = [43] ∨ sgn = [45])
    (hds : ∀ d ∈ ds, isDigitByte d = true) :
    ∀ b ∈ sgn ++ ds, b < 0x80 := by
  intro b hb
  rcases List.mem_append.mp hb with hb | hb
  · rcases hsgn with rfl | rfl | rfl
    · exact absurd hb (by simp)
    · rw [List.mem_singleton] at hb
      omega
    · rw [List.mem_singleton] at hb
      omega
  · exact digit_ascii (hds b hb)

theorem parseSize_value (s : Int) {sgn ds : List Nat}
    (hsgn : sgn = [] ∨ sgn = [43] ∨ sgn = [45]) (hne : ds ≠ [])
    (hds : ∀ d ∈ ds, isDigitByte d = true)
    (hneg : sgn = [45] → digitsVal ds = 0)
    (hb : digitsVal ds ≤ 2 ^ 63 - 1) :
    ∃ value, goParseInt64 (sgn ++ ds) = .ok value ∧ ¬(value < 0) ∧
      int64Wrap (value * s) = int64Wrap ((digitsVal ds : Int) * s) := by
  refine ⟨if sgn = [45] then -(digitsVal ds : Int) else (digitsVal ds : Int),
    goParseInt64_shape sgn ds hsgn hne hds hb, ?_, ?_⟩
  · by_cases h45 : sgn = [45]
    · rw [if_pos h45, hneg h45]
      norm_num
    · rw [if_neg h45]
      exact not_lt.mpr (Int.natCast_nonneg _)
  · by_cases h45 : sgn = [45]
    · rw [if_pos h45, hneg h45]
      norm_num
    · rw [if_neg h45]

theorem parseSize_inner (s : Int) {sgn ds w2 : List Nat}
    (hsgn : sgn = [] ∨ sgn = [43] ∨ sgn = [45]) (hne : ds ≠ [])
    (hds : ∀ d ∈ ds, isDigitByte d = true)
    (hw2 : ∀ r ∈ w2, goIsSpace r = true)
    (hval : ∀ r ∈ w2, validRune r = true)
    (hneg : sgn = [45] → digitsVal ds = 0)
    (hb : digitsVal ds ≤ 2 ^ 63 - 1) :
    ∃ value,
      goParseInt64
        (goTrimSpace ((sgn ++ ds ++ w2).flatMap utf8EncodeRune)) =
          .ok value ∧ ¬(value < 0) ∧
        int64Wrap (value * s) = int64Wrap ((digitsVal ds : Int) * s) := by
  have hvall : ∀ r ∈ sgn ++ ds ++ w2, validRune r = true := by
    intro r hr
    rcases List.mem_append.mp hr with hr | hr
    · exact validRune_ascii (sgn_ds_ascii hsgn hds r hr)
    · exact hval r hr
  rw [goTrimSpace_encodeAll hvall,
    show sgn ++ ds ++ w2 = [] ++ (sgn ++ ds) ++ w2 by
      simp [List.append_assoc],
    trim_sgn_ds (by simp) hw2 hsgn hne hds,
    encodeAll_ascii _ (sgn_ds_ascii hsgn hds)]
  exact parseSize_value s hsgn hne hds hneg hb

theorem not_suffix_single {rs : List Nat} {x : Nat} (hx80 : x < 0x80)
    (hmem : x ∉ rs) : ¬([x] <:+ rs.flatMap utf8EncodeRune) := by
  intro h
  obtain ⟨rs', hr⟩ := (encodeAll_singleton_suffix hx80).mp h
  exact hmem (hr ▸ (by simp))

theorem not_mem_sgn_ds_w2 {sgn ds w2 : List Nat}
    (hsgn : sgn = [] ∨ sgn = [43] ∨ sgn = [45])
    (hds : ∀ d ∈ ds, isDigitByte d = true)
    (hw2 : ∀ r ∈ w2, goIsSpace r = true) {x : Nat}
    (hxd : isDigitByte x = false) (hxs : goIsSpace x = false)
    (hx43 : x ≠ 43) (hx45 : x ≠ 45) : x ∉ sgn ++ ds ++ w2 := by
  intro hx
  rcases List.mem_append.mp hx with hx | hx
  · rcases List.mem_append.mp hx with hx | hx
    · rcases hsgn with rfl | rfl | rfl
      · exact absurd hx (by simp)
      · exact hx43 (List.mem_singleton.mp hx)
      · exact hx45 (List.mem_singleton.mp hx)
    · rw [hds x hx] at hxd
      exact absurd hxd (by simp)
  · rw [hw2 x hx] at hxs
    exact absurd hxs (by simp)

theorem parseSize_forward_suffix2 {input w1 sgn ds w2 w3 : List Nat}
    {a : Nat} {s : Int}
    (hmap : (utf8Decode input).map goToUpperRune =
      w1 ++ sgn ++ ds ++ w2 ++ [a, 66] ++ w3)
    (hw1 : ∀ r ∈ w1, goIsSpace r = true)
    (hsgn : sgn = [] ∨ sgn = [43] ∨ sgn = [45]) (hne : ds ≠ [])
    (hds : ∀ d ∈ ds, isDigitByte d = true)
    (hw2 : ∀ r ∈ w2, goIsSpace r = true)
    (hval : ∀ r ∈ w2, validRune r = true)
    (hw3 : ∀ r ∈ w3, goIsSpace r = true)
    (hneg : sgn = [45] → digitsVal ds = 0)
    (hb : digitsVal ds ≤ 2 ^ 63 - 1)
    (ha : a = 71 ∧ s = 1073741824 ∨ a = 77 ∧ s = 1048576 ∨
      a = 75 ∧ s = 1024) :
    parseSize input = .ok (int64Wrap ((digitsVal ds : Int) * s)) := by
  have htrim : trimSpaceRunes ((utf8Decode input).map goToUpperRune) =
      sgn ++ ds ++ w2 ++ [a, 66] := by
    rw [hmap, show w1 ++ sgn ++ ds ++ w2 ++ [a, 66] ++ w3 =
      w1 ++ (sgn ++ ds ++ w2 ++ [a, 66]) ++ w3 by simp [List.append_assoc]]
    refine trimSpaceRunes_exact hw1 hw3 (by simp) ?_ ?_
    · intro h hh
      refine @sgn_ds_head sgn ds (w2 ++ [a, 66]) hsgn hne hds h ?_
      rw [show sgn ++ (ds ++ (w2 ++ [a, 66])) = sgn ++ ds ++ w2 ++ [a, 66] by
        simp [List.append_assoc]]
      exact hh
    · intro h hh
      rw [show sgn ++ ds ++ w2 ++ [a, 66] =
          (sgn ++ ds ++ w2 ++ [a]) ++ [66] by simp [List.append_assoc],
        List.getLast?_concat, Option.some_inj] at hh
      rw [← hh]
      decide
  have htext : goTrimSpace (goToUpper input) =
      (sgn ++ ds ++ w2).flatMap utf8EncodeRune ++ [a, 66] := by
    rw [parseSize_text, htrim, List.flatMap_append]
    congr 1
    rcases ha with ⟨rfl, _⟩ | ⟨rfl, _⟩ | ⟨rfl, _⟩ <;> rfl
  have htne : goTrimSpace (goToUpper input) ≠ [] := by
    rw [htext]
    simp
  have hsplit : sizeSuffixSplit (goTrimSpace (goToUpper input)) =
      (goTrimSpace ((sgn ++ ds ++ w2).flatMap utf8EncodeRune), s) := by
    rw [htext]
    rcases ha with ⟨rfl, rfl⟩ | ⟨rfl, rfl⟩ | ⟨rfl, rfl⟩
    · unfold sizeSuffixSplit
      have hlen : ((sgn ++ ds ++ w2).flatMap utf8EncodeRune ++
          [71, 66]).length - 2 =
          ((sgn ++ ds ++ w2).flatMap utf8EncodeRune).length := by
        simp only [List.length_append, List.length_cons, List.length_nil]
        omega
      rw [if_pos (List.isSuffixOf_iff_suffix.mpr ⟨_, rfl⟩), hlen,
        List.take_left]
    · have hgb : ¬(List.isSuffixOf [71, 66]
          ((sgn ++ ds ++ w2).flatMap utf8EncodeRune ++ [77, 66]) = true) := by
        intro hcon
        have h1 := List.isSuffixOf_iff_suffix.mp hcon
        rw [show (sgn ++ ds ++ w2).flatMap utf8EncodeRune ++ [77, 66] =
            ((sgn ++ ds ++ w2).flatMap utf8EncodeRune ++ [77]) ++ [66] by
          simp] at h1
        obtain ⟨-, h2⟩ := suffix_pair_concat.mp h1
        exact absurd (suffix_singleton_concat.mp h2) (by norm_num)
      unfold sizeSuffixSplit
      have hlen : ((sgn ++ ds ++ w2).flatMap utf8EncodeRune ++
          [77, 66]).length - 2 =
          ((sgn ++ ds ++ w2).flatMap utf8EncodeRune).length := by
        simp only [List.length_append, List.length_cons, List.length_nil]
        omega
      rw [if_neg hgb, if_pos (List.isSuffixOf_iff_suffix.mpr ⟨_, rfl⟩), hlen,
        List.take_left]
    · have hgb : ¬(List.isSuffixOf [71, 66]
          ((sgn ++ ds ++ w2).flatMap utf8EncodeRune ++ [75, 66]) = true) := by
        intro hcon
        have h1 := List.isSuffixOf_iff_suffix.mp hcon
        rw [show (sgn ++ ds ++ w2).flatMap utf8EncodeRune ++ [75, 66] =
            ((sgn ++ ds ++ w2).flatMap utf8EncodeRune ++ [75]) ++ [66] by
          simp] at h1
        obtain ⟨-, h2⟩ := suffix_pair_concat.mp h1
        exact absurd (suffix_singleton_concat.mp h2) (by norm_num)
      have hmb : ¬(List.isSuffixOf [77, 66]
          ((sgn ++ ds ++ w2).flatMap utf8EncodeRune ++ [75, 66]) = true) := by
        intro hcon
        have h1 := List.isSuffixOf_iff_suffix.mp hcon
        rw [show (sgn ++ ds ++ w2).flatMap utf8EncodeRune ++ [75, 66] =
            ((sgn ++ ds ++ w2).flatMap utf8EncodeRune ++ [75]) ++ [66] by
          simp] at h1
        obtain ⟨-, h2⟩ := suffix_pair_concat.mp h1
        exact absurd (suffix_singleton_concat.mp h2) (by norm_num)
      unfold sizeSuffixSplit
      have hlen : ((sgn ++ ds ++ w2).flatMap utf8EncodeRune ++
          [75, 66]).length - 2 =
          ((sgn ++ ds ++ w2).flatMap utf8EncodeRune).length := by
        simp only [List.length_append, List.length_cons, List.length_nil]
        omega
      rw [if_neg hgb, if_neg hmb,
        if_pos (List.isSuffixOf_iff_suffix.mpr ⟨_, rfl⟩), hlen,
        List.take_left]
  obtain ⟨value, hok, hnn, hvq⟩ := parseSize_inner s hsgn hne hds hw2 hval
    hneg hb
  simp only [parseSize]
  rw [if_neg htne, hsplit]
  try dsimp only
  rw [hok]
  try dsimp only
  rw [if_neg hnn, hvq]

theorem parseSize_forward_suffix1 {input w1 sgn ds w2 w3 : List Nat}
    (hmap : (utf8Decode input).map goToUpperRune =
      w1 ++ sgn ++ ds ++ w2 ++ [66] ++ w3)
    (hw1 : ∀ r ∈ w1, goIsSpace r = true)
    (hsgn : sgn = [] ∨ sgn = [43] ∨ sgn = [45]) (hne : ds ≠ [])
    (hds : ∀ d ∈ ds, isDigitByte d = true)
    (hw2 : ∀ r ∈ w2, goIsSpace r = true)
    (hval : ∀ r ∈ w2, validRune r = true)
    (hw3 : ∀ r ∈ w3, goIsSpace r = true)
    (hneg : sgn = [45] → digitsVal ds = 0)
    (hb : digitsVal ds ≤ 2 ^ 63 - 1) :
    parseSize input = .ok (int64Wrap ((digitsVal ds : Int) * 1)) := by
  have htrim : trimSpaceRunes ((utf8Decode input).map goToUpperRune) =
      sgn ++ ds ++ w2 ++ [66] := by
    rw [hmap, show w1 ++ sgn ++ ds ++ w2 ++ [66] ++ w3 =
      w1 ++ (sgn ++ ds ++ w2 ++ [66]) ++ w3 by simp [List.append_assoc]]
    refine trimSpaceRunes_exact hw1 hw3 (by simp) ?_ ?_
    · intro h hh
      refine @sgn_ds_head sgn ds (w2 ++ [66]) hsgn hne hds h ?_
      rw [show sgn ++ (ds ++ (w2 ++ [66])) = sgn ++ ds ++ w2 ++ [66] by
        simp [List.append_assoc]]
      exact hh
    · intro h hh
      rw [show sgn ++ ds ++ w2 ++ [66] = (sgn ++ ds ++ w2) ++ [66] by rfl,
        List.getLast?_concat, Option.some_inj] at hh
      rw [← hh]
      decide
  have htext : goTrimSpace (goToUpper input) =
      (sgn ++ ds ++ w2).flatMap utf8EncodeRune ++ [66] := by
    rw [parseSize_text, htrim, List.flatMap_append]
    rfl
  have htne : goTrimSpace (goToUpper input) ≠ [] := by
    rw [htext]
    simp
  have h71 : ¬([71] <:+ (sgn ++ ds ++ w2).flatMap utf8EncodeRune) :=
    not_suffix_single (by norm_num)
      (not_mem_sgn_ds_w2 hsgn hds hw2 (by decide) (by decide) (by decide)
        (by decide))
  have h77 : ¬([77] <:+ (sgn ++ ds ++ w2).flatMap utf8EncodeRune) :=
    not_suffix_single (by norm_num)
      (not_mem_sgn_ds_w2 hsgn hds hw2 (by decide) (by decide) (by decide)
        (by decide))
  have h75 : ¬([75] <:+ (sgn ++ ds ++ w2).flatMap utf8EncodeRune) :=
    not_suffix_single (by norm_num)
      (not_mem_sgn_ds_w2 hsgn hds hw2 (by decide) (by decide) (by decide)
        (by decide))
  have hsplit : sizeSuffixSplit (goTrimSpace (goToUpper input)) =
      (goTrimSpace ((sgn ++ ds ++ w2).flatMap utf8EncodeRune), 1) := by
    rw [htext]
    have hgb : ¬(List.isSuffixOf [71, 66]
        ((sgn ++ ds ++ w2).flatMap utf8EncodeRune ++ [66]) = true) := by
      intro hcon
      exact h71 (suffix_pair_concat.mp (List.isSuffixOf_iff_suffix.mp hcon)).2
    have hmb : ¬(List.isSuffixOf [77, 66]
        ((sgn ++ ds ++ w2).flatMap utf8EncodeRune ++ [66]) = true) := by
      intro hcon
      exact h77 (suffix_pair_concat.mp (List.isSuffixOf_iff_suffix.mp hcon)).2
    have hkb : ¬(List.isSuffixOf [75, 66]
        ((sgn ++ ds ++ w2).flatMap utf8EncodeRune ++ [66]) = true) := by
      intro hcon
      exact h75 (suffix_pair_concat.mp (List.isSuffixOf_iff_suffix.mp hcon)).2
    have hlen : ((sgn ++ ds ++ w2).flatMap utf8EncodeRune ++ [66]).length - 1 =
        ((sgn ++ ds ++ w2).flatMap utf8EncodeRune).length := by
      simp only [List.length_append, List.length_cons, List.length_nil]
      omega
    unfold sizeSuffixSplit
    rw [if_neg hgb, if_neg hmb, if_neg hkb,
      if_pos (List.isSuffixOf_iff_suffix.mpr ⟨_, rfl⟩), hlen, List.take_left]
  obtain ⟨value, hok, hnn, hvq⟩ := parseSize_inner 1 hsgn hne hds hw2 hval
    hneg hb
  simp only [parseSize]
  rw [if_neg htne, hsplit]
  try dsimp only
  rw [hok]
  try dsimp only
  rw [if_neg hnn, hvq]

theorem parseSize_forward_suffix0 {input w1 sgn ds w2 w3 : List Nat}
    (hmap : (utf8Decode input).map goToUpperRune =
      w1 ++ sgn ++ ds ++ w2 ++ w3)
    (hw1 : ∀ r ∈ w1, goIsSpace r = true)
    (hsgn : sgn = [] ∨ sgn = [43] ∨ sgn = [45]) (hne : ds ≠ [])
    (hds : ∀ d ∈ ds, isDigitByte d = true)
    (hw2 : ∀ r ∈ w2, goIsSpace r = true)
    (hw3 : ∀ r ∈ w3, goIsSpace r = true)
    (hneg : sgn = [45] → digitsVal ds = 0)
    (hb : digitsVal ds ≤ 2 ^ 63 - 1) :
    parseSize input = .ok (int64Wrap ((digitsVal ds : Int) * 1)) := by
  have htrim : trimSpaceRunes ((utf8Decode input).map goToUpperRune) =
      sgn ++ ds := by
    rw [hmap, show w1 ++ sgn ++ ds ++ w2 ++ w3 =
      w1 ++ (sgn ++ ds) ++ (w2 ++ w3) by simp [List.append_assoc]]
    refine trim_sgn_ds hw1 ?_ hsgn hne hds
    intro r hr
    rcases List.mem_append.mp hr with hr | hr
    · exact hw2 r hr
    · exact hw3 r hr
  have htext : goTrimSpace (goToUpper input) =
      (sgn ++ ds).flatMap utf8EncodeRune := by
    rw [parseSize_text, htrim]
  have htextA : goTrimSpace (goToUpper input) = sgn ++ ds := by
    rw [htext, encodeAll_ascii _ (sgn_ds_ascii hsgn hds)]
  have htne : goTrimSpace (goToUpper input) ≠ [] := by
    rw [htextA]
    intro hc
    exact hne (List.append_eq_nil.mp hc).2
  have h66 : ¬([66] <:+ goTrimSpace (goToUpper input)) := by
    rw [htext]
    refine not_suffix_single (by norm_num) ?_
    have h := @not_mem_sgn_ds_w2 sgn ds [] hsgn hds (by simp) 66 (by decide)
      (by decide) (by decide) (by decide)
    intro hc
    exact h (by simpa using hc)
  have hsplit : sizeSuffixSplit (goTrimSpace (goToUpper input)) =
      (goTrimSpace (goToUpper input), 1) := by
    have hgb : ¬(List.isSuffixOf [71, 66]
        (goTrimSpace (goToUpper input)) = true) := by
      intro hcon
      exact h66 (List.IsSuffix.trans ⟨[71], rfl⟩
        (List.isSuffixOf_iff_suffix.mp hcon))
    have hmb : ¬(List.isSuffixOf [77, 66]
        (goTrimSpace (goToUpper input)) = true) := by
      intro hcon
      exact h66 (List.IsSuffix.trans ⟨[77], rfl⟩
        (List.isSuffixOf_iff_suffix.mp hcon))
    have hkb : ¬(List.isSuffixOf [75, 66]
        (goTrimSpace (goToUpper input)) = true) := by
      intro hcon
      exact h66 (List.IsSuffix.trans ⟨[75], rfl⟩
        (List.isSuffixOf_iff_suffix.mp hcon))
    have hbb : ¬(List.isSuffixOf [66]
        (goTrimSpace (goToUpper input)) = true) := by
      intro hcon
      exact h66 (List.isSuffixOf_iff_suffix.mp hcon)
    unfold sizeSuffixSplit
    rw [if_neg hgb, if_neg hmb, if_neg hkb, if_neg hbb]
  obtain ⟨value, hok, hnn, hvq⟩ := parseSize_value 1 hsgn hne hds hneg hb
  simp only [parseSize]
  rw [if_neg htne, hsplit]
  try dsimp only
  rw [htextA, hok]
  try dsimp only
  rw [if_neg hnn, hvq]

theorem parseSize_forward {input : List Nat} {v : Nat} {scale : Int}
    (h : sizeWellFormed input v scale) :
    parseSize input = .ok (int64Wrap ((v : Int) * scale)) := by
  obtain ⟨w1, sgn, ds, w2, suf, w3, hdec, hw1, hsgn, hne, hds, hw2, hsufv,
    hw3, hv, hneg, hb⟩ := h
  have hval : ∀ r ∈ w2, validRune r = true := by
    intro r hr
    have hmem : r ∈ utf8Decode input := by
      rw [hdec]
      simp only [List.mem_append]
      tauto
    exact utf8Decode_valid hmem
  have hm1 : List.map goToUpperRune w1 = w1 :=
    map_upper_id (fun x hx => space_not_lower (hw1 x hx))
  have hmsgn : List.map goToUpperRune sgn = sgn := by
    rcases hsgn with rfl | rfl | rfl <;> decide
  have hmds : List.map goToUpperRune ds = ds :=
    map_upper_id (fun d hd => digit_not_lower (hds d hd))
  have hm2 : List.map goToUpperRune w2 = w2 :=
    map_upper_id (fun x hx => space_not_lower (hw2 x hx))
  have hm3 : List.map goToUpperRune w3 = w3 :=
    map_upper_id (fun x hx => space_not_lower (hw3 x hx))
  have hmap0 : (utf8Decode input).map goToUpperRune =
      w1 ++ sgn ++ ds ++ w2 ++ List.map goToUpperRune suf ++ w3 := by
    rw [hdec]
    simp only [List.map_append]
    rw [hm1, hmsgn, hmds, hm2, hm3]
  rw [hv]
  rcases hsufv with ⟨rfl, rfl⟩ | ⟨hs2, rfl⟩ | ⟨hs2, rfl⟩ | ⟨hs2, rfl⟩ |
    ⟨hs2, rfl⟩
  · simp only [List.map_nil, List.append_nil] at hmap0
    exact parseSize_forward_suffix0 hmap0 hw1 hsgn hne hds hw2 hw3 hneg hb
  · rcases hs2 with rfl | rfl
    · rw [show List.map goToUpperRune [66] = [66] from by decide] at hmap0
      exact parseSize_forward_suffix1 hmap0 hw1 hsgn hne hds hw2 hval hw3
        hneg hb
    · rw [show List.map goToUpperRune [98] = [66] from by decide] at hmap0
      exact parseSize_forward_suffix1 hmap0 hw1 hsgn hne hds hw2 hval hw3
        hneg hb
  · rcases hs2 with rfl | rfl | rfl | rfl
    · rw [show List.map goToUpperRune [75, 66] = [75, 66] from by decide]
        at hmap0
      exact parseSize_forward_suffix2 hmap0 hw1 hsgn hne hds hw2 hval hw3
        hneg hb (Or.inr (Or.inr ⟨rfl, rfl⟩))
    · rw [show List.map goToUpperRune [75, 98] = [75, 66] from by decide]
        at hmap0
      exact parseSize_forward_suffix2 hmap0 hw1 hsgn hne hds hw2 hval hw3
        hneg hb (Or.inr (Or.inr ⟨rfl, rfl⟩))
    · rw [show List.map goToUpperRune [107, 66] = [75, 66] from by decide]
        at hmap0
      exact parseSize_forward_suffix2 hmap0 hw1 hsgn hne hds hw2 hval hw3
        hneg hb (Or.inr (Or.inr ⟨rfl, rfl⟩))
    · rw [show List.map goToUpperRune [107, 98] = [75, 66] from by decide]
        at hmap0
      exact parseSize_forward_suffix2 hmap0 hw1 hsgn hne hds hw2 hval hw3
        hneg hb (Or.inr (Or.inr ⟨rfl, rfl⟩))
  · rcases hs2 with rfl | rfl | rfl | rfl
    · rw [show List.map goToUpperRune [77, 66] = [77, 66] from by decide]
        at hmap0
      exact parseSize_forward_suffix2 hmap0 hw1 hsgn hne hds hw2 hval hw3
        hneg hb (Or.inr (Or.inl ⟨rfl, rfl⟩))
    · rw [show List.map goToUpperRune [77, 98] = [77, 66] from by decide]
        at hmap0
      exact parseSize_forward_suffix2 hmap0 hw1 hsgn hne hds hw2 hval hw3
        hneg hb (Or.inr (Or.inl ⟨rfl, rfl⟩))
    · rw [show List.map goToUpperRune [109, 66] = [77, 66] from by decide]
        at hmap0
      exact parseSize_forward_suffix2 hmap0 hw1 hsgn hne hds hw2 hval hw3
        hneg hb (Or.inr (Or.inl ⟨rfl, rfl⟩))
    · rw [show List.map goToUpperRune [109, 98] = [77, 66] from by decide]
        at hmap0
      exact parseSize_forward_suffix2 hmap0 hw1 hsgn hne hds hw2 hval hw3
        hneg hb (Or.inr (Or.inl ⟨rfl, rfl⟩))
  · rcases hs2 with rfl | rfl | rfl | rfl
    · rw [show List.map goToUpperRune [71, 66] = [71, 66] from by decide]
        at hmap0
      exact parseSize_forward_suffix2 hmap0 hw1 hsgn hne hds hw2 hval hw3
        hneg hb (Or.inl ⟨rfl, rfl⟩)
    · rw [show List.map goToUpperRune [71, 98] = [71, 66] from by decide]
        at hmap0
      exact parseSize_forward_suffix2 hmap0 hw1 hsgn hne hds hw2 hval hw3
        hneg hb (Or.inl ⟨rfl, rfl⟩)
    · rw [show List.map goToUpperRune [103, 66] = [71, 66] from by decide]
        at hmap0
      exact parseSize_forward_suffix2 hmap0 hw1 hsgn hne hds hw2 hval hw3
        hneg hb (Or.inl ⟨rfl, rfl⟩)
    · rw [show List.map goToUpperRune [103, 98] = [71, 66] from by decide]
        at hmap0
      exact parseSize_forward_suffix2 hmap0 hw1 hsgn hne hds hw2 hval hw3
        hneg hb (Or.inl ⟨rfl, rfl⟩)

theorem digit_not_upperrange {d : Nat} (h : isDigitByte d = true) :
    ¬(0x41 ≤ d ∧ d ≤ 0x5A) := by
  simp only [isDigitByte, Bool.and_eq_true, decide_eq_true_eq] at h
  omega

theorem parseSize_reverse_core {input ts' sufR ts0 : List Nat}
    {value scale : Int}
    (hts : trimSpaceRunes ((utf8Decode input).map goToUpperRune) =
      ts' ++ sufR)
    (hok : goParseInt64 (ts0.flatMap utf8EncodeRune) = .ok value)
    (hnn : ¬(value < 0))
    (hts0 : ∃ wa wb, (∀ r ∈ wa, goIsSpace r = true) ∧
      (∀ r ∈ wb, goIsSpace r = true) ∧ ts' = wa ++ ts0 ++ wb)
    (hsufR : ∀ usuf, usuf.map goToUpperRune = sufR →
      sufScaleVariant usuf scale) :
    ∃ v0 : Nat, sizeWellFormed input v0 scale ∧ value = (v0 : Int) := by
  obtain ⟨wa, wb, hwa, hwb, hts'eq⟩ := hts0
  obtain ⟨sgnB, dsB, hEq, hsgnB, hneB, hdsB, hcase⟩ :=
    goParseInt64_ok_shape hok
  have hascii : allASCII (ts0.flatMap utf8EncodeRune) = true := by
    rw [hEq]
    unfold allASCII
    rw [List.all_eq_true]
    intro b hb
    simp only [decide_eq_true_eq]
    exact sgn_ds_ascii hsgnB hdsB b hb
  obtain ⟨hflat, -⟩ := encodeAll_ascii_of_allASCII _ hascii
  have hts0eq : ts0 = sgnB ++ dsB := by
    rw [← hflat, hEq]
  have hvalue : value = (digitsVal dsB : Int) := by
    rcases hcase with ⟨h45, hveq, hbound⟩ | ⟨h45, hveq, hbound⟩
    · have h0 : (digitsVal dsB : Int) = 0 := by
        by_contra hne0
        apply hnn
        rw [hveq]
        have hpos : (0 : Int) < (digitsVal dsB : Int) :=
          lt_of_le_of_ne (Int.natCast_nonneg _) (Ne.symm hne0)
        omega
      rw [hveq, h0]
      norm_num
    · exact hveq
  have hnegf : sgnB = [45] → digitsVal dsB = 0 := by
    intro h45
    rcases hcase with ⟨-, hveq, -⟩ | ⟨hn45, -, -⟩
    · have : (digitsVal dsB : Int) = 0 := by
        rw [hvalue] at hveq
        omega
      exact_mod_cast this
    · exact absurd h45 hn45
  have hbnd : digitsVal dsB ≤ 2 ^ 63 - 1 := by
    rcases hcase with ⟨h45, -, -⟩ | ⟨-, -, hbound⟩
    · rw [hnegf h45]
      omega
    · exact hbound
  -- decompose the uppercased rune string and pull it back through the map
  obtain ⟨W1, W3, hW1, hW3, hsplitM⟩ :=
    trimSpaceRunes_split ((utf8Decode input).map goToUpperRune)
  rw [hts, hts'eq, hts0eq] at hsplitM
  have hM : (utf8Decode input).map goToUpperRune =
      (W1 ++ wa) ++ (sgnB ++ (dsB ++ (wb ++ (sufR ++ W3)))) := by
    rw [hsplitM]
    simp [List.append_assoc]
  obtain ⟨u1, rest1, hrs1, hu1, hrest1⟩ := List.map_eq_append_iff.mp hM
  obtain ⟨usgn, rest2, hrs2, husgn, hrest2⟩ :=
    List.map_eq_append_iff.mp hrest1
  obtain ⟨uds, rest3, hrs3, huds, hrest3⟩ := List.map_eq_append_iff.mp hrest2
  obtain ⟨uw2, rest4, hrs4, huw2, hrest4⟩ := List.map_eq_append_iff.mp hrest3
  obtain ⟨usuf, uw3, hrs5, husuf, huw3⟩ := List.map_eq_append_iff.mp hrest4
  have husgn' : usgn = sgnB := by
    refine map_goToUpperRune_fix ?_ usgn husgn
    rcases hsgnB with rfl | rfl | rfl
    · simp
    · intro x hx
      rw [List.mem_singleton] at hx
      omega
    · intro x hx
      rw [List.mem_singleton] at hx
      omega
  have huds' : uds = dsB :=
    map_goToUpperRune_fix (fun d hd => digit_not_upperrange (hdsB d hd))
      uds huds
  have hu1S : ∀ r ∈ u1, goIsSpace r = true := by
    intro r hr
    have h1 : goToUpperRune r ∈ W1 ++ wa := hu1 ▸ List.mem_map_of_mem _ hr
    have h2 : goIsSpace (goToUpperRune r) = true := by
      rcases List.mem_append.mp h1 with h1 | h1
      · exact hW1 _ h1
      · exact hwa _ h1
    rwa [goIsSpace_goToUpperRune] at h2
  have huw2S : ∀ r ∈ uw2, goIsSpace r = true := by
    intro r hr
    have h1 : goToUpperRune r ∈ wb := huw2 ▸ List.mem_map_of_mem _ hr
    have h2 := hwb _ h1
    rwa [goIsSpace_goToUpperRune] at h2
  have huw3S : ∀ r ∈ uw3, goIsSpace r = true := by
    intro r hr
    have h1 : goToUpperRune r ∈ W3 := huw3 ▸ List.mem_map_of_mem _ hr
    have h2 := hW3 _ h1
    rwa [goIsSpace_goToUpperRune] at h2
  refine ⟨digitsVal dsB,
    ⟨u1, sgnB, dsB, uw2, usuf, uw3, ?_, hu1S, hsgnB, hneB, hdsB, huw2S,
      hsufR usuf husuf, huw3S, rfl, hnegf, hbnd⟩, hvalue⟩
  rw [hrs1, hrs2, hrs3, hrs4, hrs5, husgn', huds']
  simp [List.append_assoc]

theorem parseSize_ok_classified {input : List Nat} {v : Int}
    (h : parseSize input = .ok v) :
    ((∀ r ∈ utf8Decode input, goIsSpace r = true) ∧ v = 0) ∨
      ∃ v0 scale, sizeWellFormed input v0 scale ∧
        v = int64Wrap ((v0 : Int) * scale) := by
  simp only [parseSize] at h
  by_cases htxt : goTrimSpace (goToUpper input) = []
  · rw [if_pos htxt] at h
    left
    refine ⟨?_, (Except.ok.inj h).symm⟩
    rw [parseSize_text] at htxt
    have hts := (encodeAll_nil_iff _).mp htxt
    have hsp := allSpace_of_trimSpaceRunes_nil hts
    intro r hr
    have h2 : goIsSpace (goToUpperRune r) = true :=
      hsp _ (List.mem_map_of_mem _ hr)
    rwa [goIsSpace_goToUpperRune] at h2
  · rw [if_neg htxt] at h
    rw [parseSize_text] at h
    set T := trimSpaceRunes ((utf8Decode input).map goToUpperRune) with hT
    have hvalT : ∀ r ∈ T, validRune r = true := by
      intro r hr
      rw [hT] at hr
      have h1 := mem_trimSpaceRunes hr
      obtain ⟨r0, hr0, rfl⟩ := List.mem_map.mp h1
      exact goToUpperRune_valid (utf8Decode_valid hr0)
    by_cases hGB : List.isSuffixOf [71, 66] (T.flatMap utf8EncodeRune) = true
    · obtain ⟨ts', hts'⟩ := (encodeAll_pair_suffix (by norm_num)
        (by norm_num)).mp (List.isSuffixOf_iff_suffix.mp hGB)
      have hE : T.flatMap utf8EncodeRune =
          ts'.flatMap utf8EncodeRune ++ [71, 66] := by
        rw [hts', List.flatMap_append]
        rfl
      have hlen : (ts'.flatMap utf8EncodeRune ++ [71, 66]).length - 2 =
          (ts'.flatMap utf8EncodeRune).length := by
        simp only [List.length_append, List.length_cons, List.length_nil]
        omega
      have hsplitEq : sizeSuffixSplit (T.flatMap utf8EncodeRune) =
          (goTrimSpace (ts'.flatMap utf8EncodeRune), 1073741824) := by
        unfold sizeSuffixSplit
        rw [if_pos hGB, hE, hlen, List.take_left]
      rw [hsplitEq] at h
      try dsimp only at h
      have hvalid' : ∀ r ∈ ts', validRune r = true := by
        intro r hr
        exact hvalT r (by rw [hts']; exact List.mem_append.mpr (Or.inl hr))
      rw [goTrimSpace_encodeAll hvalid'] at h
      rcases hpi : goParseInt64 ((trimSpaceRunes ts').flatMap utf8EncodeRune)
        with u | value
      · rw [hpi] at h
        simp at h
      · rw [hpi] at h
        try dsimp only at h
        by_cases hvn : value < 0
        · rw [if_pos hvn] at h
          simp at h
        · rw [if_neg hvn] at h
          have hv : v = int64Wrap (value * 1073741824) := (Except.ok.inj h).symm
          obtain ⟨v0, hwf, hveq⟩ := parseSize_reverse_core
            (show trimSpaceRunes ((utf8Decode input).map goToUpperRune) =
              ts' ++ [71, 66] from by rw [← hT]; exact hts')
            hpi hvn (trimSpaceRunes_split ts')
            (fun usuf hmu =>
              show sufScaleVariant usuf (1073741824 : Int) from by
                rcases map_upper_pair hmu with rfl | rfl | rfl | rfl <;>
                  simp [sufScaleVariant])
          exact Or.inr ⟨v0, 1073741824, hwf, by rw [hv, hveq]⟩
    · by_cases hMB : List.isSuffixOf [77, 66]
          (T.flatMap utf8EncodeRune) = true
      · obtain ⟨ts', hts'⟩ := (encodeAll_pair_suffix (by norm_num)
          (by norm_num)).mp (List.isSuffixOf_iff_suffix.mp hMB)
        have hE : T.flatMap utf8EncodeRune =
            ts'.flatMap utf8EncodeRune ++ [77, 66] := by
          rw [hts', List.flatMap_append]
          rfl
        have hlen : (ts'.flatMap utf8EncodeRune ++ [77, 66]).length - 2 =
            (ts'.flatMap utf8EncodeRune).length := by
          simp only [List.length_append, List.length_cons, List.length_nil]
          omega
        have hsplitEq : sizeSuffixSplit (T.flatMap utf8EncodeRune) =
            (goTrimSpace (ts'.flatMap utf8EncodeRune), 1048576) := by
          unfold sizeSuffixSplit
          rw [if_neg hGB, if_pos hMB, hE, hlen, List.take_left]
        rw [hsplitEq] at h
        try dsimp only at h
        have hvalid' : ∀ r ∈ ts', validRune r = true := by
          intro r hr
          exact hvalT r (by rw [hts']; exact List.mem_append.mpr (Or.inl hr))
        rw [goTrimSpace_encodeAll hvalid'] at h
        rcases hpi : goParseInt64
            ((trimSpaceRunes ts').flatMap utf8EncodeRune) with u | value
        · rw [hpi] at h
          simp at h
        · rw [hpi] at h
          try dsimp only at h
          by_cases hvn : value < 0
          · rw [if_pos hvn] at h
            simp at h
          · rw [if_neg hvn] at h
            have hv : v = int64Wrap (value * 1048576) := (Except.ok.inj h).symm
            obtain ⟨v0, hwf, hveq⟩ := parseSize_reverse_core
              (show trimSpaceRunes ((utf8Decode input).map goToUpperRune) =
                ts' ++ [77, 66] from by rw [← hT]; exact hts')
              hpi hvn (trimSpaceRunes_split ts')
              (fun usuf hmu =>
                show sufScaleVariant usuf (1048576 : Int) from by
                  rcases map_upper_pair hmu with rfl | rfl | rfl | rfl <;>
                    simp [sufScaleVariant])
            exact Or.inr ⟨v0, 1048576, hwf, by rw [hv, hveq]⟩
      · by_cases hKB : List.isSuffixOf [75, 66]
            (T.flatMap utf8EncodeRune) = true
        · obtain ⟨ts', hts'⟩ := (encodeAll_pair_suffix (by norm_num)
            (by norm_num)).mp (List.isSuffixOf_iff_suffix.mp hKB)
          have hE : T.flatMap utf8EncodeRune =
              ts'.flatMap utf8EncodeRune ++ [75, 66] := by
            rw [hts', List.flatMap_append]
            rfl
          have hlen : (ts'.flatMap utf8EncodeRune ++ [75, 66]).length - 2 =
              (ts'.flatMap utf8EncodeRune).length := by
            simp only [List.length_append, List.length_cons, List.length_nil]
            omega
          have hsplitEq : sizeSuffixSplit (T.flatMap utf8EncodeRune) =
              (goTrimSpace (ts'.flatMap utf8EncodeRune), 1024) := by
            unfold sizeSuffixSplit
            rw [if_neg hGB, if_neg hMB, if_pos hKB, hE, hlen, List.take_left]
          rw [hsplitEq] at h
          try dsimp only at h
          have hvalid' : ∀ r ∈ ts', validRune r = true := by
            intro r hr
            exact hvalT r (by rw [hts']; exact List.mem_append.mpr (Or.inl hr))
          rw [goTrimSpace_encodeAll hvalid'] at h
          rcases hpi : goParseInt64
              ((trimSpaceRunes ts').flatMap utf8EncodeRune) with u | value
          · rw [hpi] at h
            simp at h
          · rw [hpi] at h
            try dsimp only at h
            by_cases hvn : value < 0
            · rw [if_pos hvn] at h
              simp at h
            · rw [if_neg hvn] at h
              have hv : v = int64Wrap (value * 1024) := (Except.ok.inj h).symm
              obtain ⟨v0, hwf, hveq⟩ := parseSize_reverse_core
                (show trimSpaceRunes ((utf8Decode input).map goToUpperRune) =
                  ts' ++ [75, 66] from by rw [← hT]; exact hts')
                hpi hvn (trimSpaceRunes_split ts')
                (fun usuf hmu =>
                  show sufScaleVariant usuf (1024 : Int) from by
                    rcases map_upper_pair hmu with rfl | rfl | rfl | rfl <;>
                      simp [sufScaleVariant])
              exact Or.inr ⟨v0, 1024, hwf, by rw [hv, hveq]⟩
        · by_cases hBB : List.isSuffixOf [66]
              (T.flatMap utf8EncodeRune) = true
          · obtain ⟨ts', hts'⟩ := (encodeAll_singleton_suffix
              (by norm_num)).mp (List.isSuffixOf_iff_suffix.mp hBB)
            have hE : T.flatMap utf8EncodeRune =
                ts'.flatMap utf8EncodeRune ++ [66] := by
              rw [hts', List.flatMap_append]
              rfl
            have hlen : (ts'.flatMap utf8EncodeRune ++ [66]).length - 1 =
                (ts'.flatMap utf8EncodeRune).length := by
              simp only [List.length_append, List.length_cons, List.length_nil]
              omega
            have hsplitEq : sizeSuffixSplit (T.flatMap utf8EncodeRune) =
                (goTrimSpace (ts'.flatMap utf8EncodeRune), 1) := by
              unfold sizeSuffixSplit
              rw [if_neg hGB, if_neg hMB, if_neg hKB, if_pos hBB, hE, hlen,
                List.take_left]
            rw [hsplitEq] at h
            try dsimp only at h
            have hvalid' : ∀ r ∈ ts', validRune r = true := by
              intro r hr
              exact hvalT r (by rw [hts']; exact List.mem_append.mpr (Or.inl hr))
            rw [goTrimSpace_encodeAll hvalid'] at h
            rcases hpi : goParseInt64
                ((trimSpaceRunes ts').flatMap utf8EncodeRune) with u | value
            · rw [hpi] at h
              simp at h
            · rw [hpi] at h
              try dsimp only at h
              by_cases hvn : value < 0
              · rw [if_pos hvn] at h
                simp at h
              · rw [if_neg hvn] at h
                have hv : v = int64Wrap (value * 1) := (Except.ok.inj h).symm
                obtain ⟨v0, hwf, hveq⟩ := parseSize_reverse_core
                  (show trimSpaceRunes ((utf8Decode input).map goToUpperRune) =
                    ts' ++ [66] from by rw [← hT]; exact hts')
                  hpi hvn (trimSpaceRunes_split ts')
                  (fun usuf hmu =>
                    show sufScaleVariant usuf (1 : Int) from by
                      rcases map_upper_single hmu with rfl | rfl <;>
                        simp [sufScaleVariant])
                exact Or.inr ⟨v0, 1, hwf, by rw [hv, hveq]⟩
          · have hsplitEq : sizeSuffixSplit (T.flatMap utf8EncodeRune) =
                (T.flatMap utf8EncodeRune, 1) := by
              unfold sizeSuffixSplit
              rw [if_neg hGB, if_neg hMB, if_neg hKB, if_neg hBB]
            rw [hsplitEq] at h
            try dsimp only at h
            rcases hpi : goParseInt64 (T.flatMap utf8EncodeRune)
              with u | value
            · rw [hpi] at h
              simp at h
            · rw [hpi] at h
              try dsimp only at h
              by_cases hvn : value < 0
              · rw [if_pos hvn] at h
                simp at h
              · rw [if_neg hvn] at h
                have hv : v = int64Wrap (value * 1) := (Except.ok.inj h).symm
                obtain ⟨v0, hwf, hveq⟩ := parseSize_reverse_core
                  (show trimSpaceRunes ((utf8Decode input).map goToUpperRune) =
                    T ++ [] from by rw [List.append_nil, ← hT])
                  hpi hvn ⟨[], [], by simp, by simp, by simp⟩
                  (fun usuf hmu =>
                    show sufScaleVariant usuf (1 : Int) from by
                      rw [List.map_eq_nil_iff.mp hmu]
                      simp [sufScaleVariant])
                exact Or.inr ⟨v0, 1, hwf, by rw [hv, hveq]⟩

/-- C8 (counterexample): `parseSize` does not return "exactly the integer
multiplied by the suffix scale". For the input `"9223372036854775807KB"` the
value fits in `int64` and the suffix is `KB`, but the Go multiplication
`value * multiplier` overflows `int64` and wraps to `-1024`, which is not
the exact product. -/
theorem C8_overflow_wraps :
    parseSize [57, 50, 50, 51, 51, 55, 50, 48, 51, 54, 56, 53, 52, 55, 55,
      53, 56, 48, 55, 75, 66] = .ok (-1024) ∧
      ((-1024 : Int) ≠ 9223372036854775807 * 1024) := by
  constructor
  · rfl
  · norm_num

/-- C8: `parseSize` returns `0` for empty or all-white-space input; for a
well-formed size string (optional white space, an optional sign, a non-empty
run of decimal digits whose value fits in `int64` and is non-negative unless
zero, optional white space, and an optional case-insensitive suffix
`B`/`KB`/`MB`/`GB`) it returns the value multiplied by the suffix scale
reduced into `int64` two's-complement arithmetic (not always the exact
product); and every `ok` result arises in one of these two ways, so all
other inputs (malformed or negative) yield an error. -/
theorem C8_parseSize_classification (input : List Nat) :
    ((∀ r ∈ utf8Decode input, goIsSpace r = true) →
        parseSize input = .ok 0) ∧
    (∀ (v : Nat) (scale : Int), sizeWellFormed input v scale →
        parseSize input = .ok (int64Wrap ((v : Int) * scale))) ∧
    (∀ v : Int, parseSize input = .ok v →
        ((∀ r ∈ utf8Decode input, goIsSpace r = true) ∧ v = 0) ∨
          ∃ v0 scale, sizeWellFormed input v0 scale ∧
            v = int64Wrap ((v0 : Int) * scale)) := by
  refine ⟨?_, fun v scale hwf => parseSize_forward hwf,
    fun v hok => parseSize_ok_classified hok⟩
  intro hsp
  have htxt : goTrimSpace (goToUpper input) = [] := by
    rw [parseSize_text, trimSpaceRunes_nil_of_allSpace]
    · rfl
    · intro r hr
      obtain ⟨r0, hr0, rfl⟩ := List.mem_map.mp hr
      rw [goIsSpace_goToUpperRune]
      exact hsp r0 hr0
  simp only [parseSize]
  rw [if_pos htxt]

/-- Witness for C8 at the concrete input `"10KB"`: it is well-formed with
value 10 and scale 1024, and `parseSize` returns `10 * 1024`. -/
theorem C8_parseSize_classification_witness :
    sizeWellFormed [49, 48, 75, 66] 10 1024 ∧
      parseSize [49, 48, 75, 66] = .ok (int64Wrap ((10 : Int) * 1024)) := by
  have hwf : sizeWellFormed [49, 48, 75, 66] 10 1024 := by
    refine ⟨[], [], [49, 48], [], [75, 66], [], ?_, by simp, Or.inl rfl,
      by simp, by decide, by simp,
      Or.inr (Or.inr (Or.inl ⟨Or.inl rfl, rfl⟩)), by simp, by decide,
      by simp, by decide⟩
    decide
  exact ⟨hwf, (C8_parseSize_classification [49, 48, 75, 66]).2.1 10 1024 hwf⟩

/-- Go `utf8.DecodeRuneInString`: the first rune of `s` and its byte size;
`(0xFFFD, 1)` for an invalid encoding and `(0xFFFD, 0)` for the empty
string. -/
def decodeRuneInString (s : List Nat) : Nat × Nat :=
  match s with
  | [] => (0xFFFD, 0)
  | b0 :: t0 =>
    if b0 < 0x80 then (b0, 1)
    else if decide (0xC2 ≤ b0) && decide (b0 ≤ 0xDF) then
      match t0 with
      | b1 :: _ =>
        if isContByte b1 then ((b0 - 0xC0) * 0x40 + (b1 - 0x80), 2)
        else (0xFFFD, 1)
      | [] => (0xFFFD, 1)
    else if decide (0xE0 ≤ b0) && decide (b0 ≤ 0xEF) then
      match t0 with
      | b1 :: b2 :: _ =>
        if cont3ok b0 b1 && isContByte b2 then
          ((b0 - 0xE0) * 0x1000 + (b1 - 0x80) * 0x40 + (b2 - 0x80), 3)
        else (0xFFFD, 1)
      | _ => (0xFFFD, 1)
    else if decide (0xF0 ≤ b0) && decide (b0 ≤ 0xF4) then
      match t0 with
      | b1 :: b2 :: b3 :: _ =>
        if cont4ok b0 b1 && isContByte b2 && isContByte b3 then
          ((b0 - 0xF0) * 0x40000 + (b1 - 0x80) * 0x1000 +
            (b2 - 0x80) * 0x40 + (b3 - 0x80), 4)
        else (0xFFFD, 1)
      | _ => (0xFFFD, 1)
    else (0xFFFD, 1)

/-- Byte count consumed by the `Scan` loop of Go `path.scanChunk`: stop at an
unescaped `*` outside a character class, skip the byte after `\`. -/
def scanChunkLen (fuel : Nat) (p : List Nat) (inrange : Bool) : Nat :=
  match fuel, p with
  | 0, _ => 0
  | _, [] => 0
  | fuel + 1, c :: rest =>
    if c = 92 then
      match rest with
      | [] => 1
      | _ :: rest2 => 2 + scanChunkLen fuel rest2 inrange
    else if c = 91 then 1 + scanChunkLen fuel rest true
    else if c = 93 then 1 + scanChunkLen fuel rest false
    else if c = 42 then
      if inrange then 1 + scanChunkLen fuel rest true else 0
    else 1 + scanChunkLen fuel rest inrange

/-- Go `path.scanChunk`: strip leading `*`s (recording whether any were
present), then split off the next star-free chunk. -/
def scanChunk (pattern : List Nat) : Bool × List Nat × List Nat :=
  let p := pattern.dropWhile (fun c => decide (c = 42))
  let star := decide (p.length < pattern.length)
  let i := scanChunkLen p.length p false
  (star, p.take i, p.drop i)

/-- Go `path.getEsc`: one possibly-escaped character of a character class;
errors mirror `ErrBadPattern`. -/
def getEsc (chunk : List Nat) : Except Unit (Nat × List Nat) :=
  match chunk with
  | [] => .error ()
  | c :: _ =>
    if c = 45 ∨ c = 93 then .error ()
    else
      let chunk1 := if c = 92 then chunk.drop 1 else chunk
      if chunk1 = [] then .error ()
      else
        let dn := decodeRuneInString chunk1
        if dn.1 = 0xFFFD ∧ dn.2 = 1 then .error ()
        else
          let nchunk := chunk1.drop dn.2
          if nchunk = [] then .error () else .ok (dn.1, nchunk)

/-- The range-parsing loop of the `[` case of Go `path.matchChunk`: returns
whether any range matched rune `r`, and the chunk after the closing `]`. -/
def parseClassFuel : Nat → List Nat → Nat → Nat → Bool →
    Except Unit (Bool × List Nat)
  | 0, _, _, _, _ => .error ()
  | fuel + 1, chunk, r, nrange, matched =>
    if chunk.head? = some 93 ∧ nrange > 0 then .ok (matched, chunk.drop 1)
    else
      match getEsc chunk with
      | .error _ => .error ()
      | .ok (lo, chunk1) =>
        if chunk1.head? = some 45 then
          match getEsc (chunk1.drop 1) with
          | .error _ => .error ()
          | .ok (hi, chunk2) =>
            parseClassFuel fuel chunk2 r (nrange + 1)
              (matched || (decide (lo ≤ r) && decide (r ≤ hi)))
        else
          parseClassFuel fuel chunk1 r (nrange + 1)
            (matched || (decide (lo ≤ r) && decide (r ≤ lo)))

/-- Go `path.matchChunk`: match a star-free chunk at the start of `s`.
`.ok (some t)` is Go's `(t, true, nil)`, `.ok none` is `("", false, nil)`
(a plain failure), `.error ()` is `ErrBadPattern`.  The `failed` flag keeps
scanning the chunk for validity after a mismatch, exactly as in Go. -/
def matchChunkFuel : Nat → List Nat → List Nat → Bool →
    Except Unit (Option (List Nat))
  | 0, _, _, _ => .error ()
  | _ + 1, [], s, failed => if failed then .ok none else .ok (some s)
  | fuel + 1, c :: chunkRest, s, failed0 =>
    let failed := failed0 || s.isEmpty
    if c = 91 then
      let rs := if failed then ((0 : Nat), s)
        else
          let dn := decodeRuneInString s
          (dn.1, s.drop dn.2)
      let nc : Bool × List Nat :=
        match chunkRest with
        | 94 :: cr => (true, cr)
        | _ => (false, chunkRest)
      match parseClassFuel (nc.2.length + 1) nc.2 rs.1 0 false with
      | .error _ => .error ()
      | .ok (matched, chunkAfter) =>
        matchChunkFuel fuel chunkAfter rs.2
          (failed || decide (matched = nc.1))
    else if c = 63 then
      if failed then matchChunkFuel fuel chunkRest s failed
      else
        matchChunkFuel fuel chunkRest (s.drop (decodeRuneInString s).2)
          (decide (s.head? = some 47))
    else if c = 92 then
      match chunkRest with
      | [] => .error ()
      | e :: chunkRest2 =>
        if failed then matchChunkFuel fuel chunkRest2 s failed
        else
          matchChunkFuel fuel chunkRest2 (s.drop 1)
            (decide (s.head? ≠ some e))
    else
      if failed then matchChunkFuel fuel chunkRest s failed
      else
        matchChunkFuel fuel chunkRest (s.drop 1) (decide (s.head? ≠ some c))

/-- The star-retry loop of Go `path.Match`: try `matchChunk` at every skip
position `i+1` while `name[i]` is not `/`.  `.ok (some t)` resumes the outer
loop with `name = t`. -/
def starLoopFuel : Nat → List Nat → List Nat → List Nat → Nat →
    Except Unit (Option (List Nat))
  | 0, _, _, _, _ => .error ()
  | fuel + 1, chunk, rest, name, i =>
    if decide (i < name.length) && decide (name.getD i 0 ≠ 47) then
      match matchChunkFuel (chunk.length + 1) chunk (name.drop (i + 1))
          false with
      | .error _ => .error ()
      | .ok none => starLoopFuel fuel chunk rest name (i + 1)
      | .ok (some t) =>
        if rest = [] ∧ t ≠ [] then starLoopFuel fuel chunk rest name (i + 1)
        else .ok (some t)
    else .ok none

/-- The trailing validity scan of Go `path.Match`: before returning a plain
`false`, check the rest of the pattern is syntactically valid. -/
def patternValidFuel : Nat → List Nat → Bool
  | 0, _ => false
  | _ + 1, [] => true
  | fuel + 1, pattern =>
    let sc := scanChunk pattern
    match matchChunkFuel (sc.2.1.length + 1) sc.2.1 [] false with
    | .error _ => false
    | .ok _ => patternValidFuel fuel sc.2.2

/-- Go `path.Match` (the `Pattern:` loop).  Each iteration consumes at least
one pattern byte, so fuel `pattern.length + 1` is always sufficient. -/
def goPathMatchFuel : Nat → List Nat → List Nat → Except Unit Bool
  | 0, _, _ => .error ()
  | _ + 1, [], name => .ok (decide (name = []))
  | fuel + 1, pattern, name =>
    let sc := scanChunk pattern
    let star := sc.1
    let chunk := sc.2.1
    let rest := sc.2.2
    if star = true ∧ chunk = [] then .ok (decide (¬ 47 ∈ name))
    else
      let fallback : Except Unit Bool :=
        match (if star then starLoopFuel (name.length + 1) chunk rest name 0
          else .ok none) with
        | .error _ => .error ()
        | .ok (some t) => goPathMatchFuel fuel rest t
        | .ok none =>
          if patternValidFuel (rest.length + 1) rest then .ok false
          else .error ()
      match matchChunkFuel (chunk.length + 1) chunk name false with
      | .error _ => .error ()
      | .ok (some t) =>
        if t = [] ∨ rest ≠ [] then goPathMatchFuel fuel rest t else fallback
      | .ok none => fallback

/-- Go `path.Match(pattern, name)`. -/
def goPathMatch (pattern name : List Nat) : Except Unit Bool :=
  goPathMatchFuel (pattern.length + 1) pattern name

/-- `main.go` `globMatch`: `path.Match`, with a malformed pattern counting as
no match. -/
def globMatch (patternText value : List Nat) : Bool :=
  match goPathMatch patternText value with
  | .error _ => false
  | .ok m => m

/-- `main.go` `ignoreRule`. -/
structure ignoreRule where
  baseDir : List Nat
  pattern : List Nat
  negate : Bool
  dirOnly : Bool
  hasPath : Bool
deriving Repr, DecidableEq

/-- Go `strings.ReplaceAll(s, "**", "*")`: left-to-right, non-overlapping. -/
def replaceDoubleStar : List Nat → List Nat
  | [] => []
  | 42 :: 42 :: rest => 42 :: replaceDoubleStar rest
  | c :: rest => c :: replaceDoubleStar rest

/-- Go `strings.TrimSuffix(s, "/")`: drop one trailing slash if present. -/
def trimSuffixSlash (s : List Nat) : List Nat :=
  if s.getLast? = some 47 then s.dropLast else s

/-- Go `strings.Split(s, "/")`. -/
def splitSlash : List Nat → List (List Nat)
  | [] => [[]]
  | c :: rest =>
    let r := splitSlash rest
    if c = 47 then [] :: r
    else
      match r with
      | h :: t => (c :: h) :: t
      | [] => [[c]]

/-- `main.go` `ruleMatch`: `**` collapses to `*`; path rules match the whole
relative path or a directory prefix of it, name rules match any segment. -/
def ruleMatch (rule : ignoreRule) (relSlash : List Nat) : Bool :=
  let patternText := replaceDoubleStar rule.pattern
  if rule.hasPath then
    globMatch patternText relSlash ||
      List.isPrefixOf (trimSuffixSlash patternText ++ [47]) relSlash
  else
    (splitSlash relSlash).any (fun seg => globMatch patternText seg)

/-- Go `filepath.Base` for slash-separated paths. -/
def baseName (path : List Nat) : List Nat :=
  if path = [] then [46]
  else
    let p := (path.reverse.dropWhile (fun c => decide (c = 47))).reverse
    if p = [] then [47]
    else (p.reverse.takeWhile (fun c => decide (c ≠ 47))).reverse

/-- `main.go` `shouldIgnorePath`.  `defaultIgnoreDirs` stands for
`cfg.defaultIgnoreDirs` (a name set); `rel` stands for the composition of
`filepath.Rel` and `filepath.ToSlash`, with `none` for `err != nil` — the
function is abstract here because it consults the OS path syntax, and
`shouldIgnorePath` only branches on its result. -/
def shouldIgnorePath (defaultIgnoreDirs : List (List Nat))
    (rel : List Nat → List Nat → Option (List Nat))
    (rules : List ignoreRule) (fullPath : List Nat) (isDir : Bool) : Bool :=
  let name := goToLower (baseName fullPath)
  if isDir && defaultIgnoreDirs.contains name then true
  else
    rules.foldl
      (fun ignored rule =>
        if rule.dirOnly && !isDir then ignored
        else
          match rel rule.baseDir fullPath with
          | none => ignored
          | some relSlash =>
            if relSlash = [46] ∨ List.isPrefixOf [46, 46, 47] relSlash then
              ignored
            else if ruleMatch rule relSlash then !rule.negate
            else ignored)
      false

/-- Modelled from the spec: a rule is applicable to a path when it is not
skipped as dir-only on a non-directory, its relative path resolves, is not
`.` and does not start with `../`, and the rule matches. -/
def ruleApplies (rel : List Nat → List Nat → Option (List Nat))
    (fullPath : List Nat) (isDir : Bool) (rule : ignoreRule) : Bool :=
  if rule.dirOnly && !isDir then false
  else
    match rel rule.baseDir fullPath with
    | none => false
    | some relSlash =>
      if relSlash = [46] ∨ List.isPrefixOf [46, 46, 47] relSlash then false
      else ruleMatch rule relSlash

/-- Modelled from the spec: default-ignored directories are always ignored;
otherwise the verdict is `!negate` of the last applicable matching rule, and
`false` when none matches. -/
def lastMatchWins (defaultIgnoreDirs : List (List Nat))
    (rel : List Nat → List Nat → Option (List Nat))
    (rules : List ignoreRule) (fullPath : List Nat) (isDir : Bool) : Bool :=
  let name := goToLower (baseName fullPath)
  if isDir && defaultIgnoreDirs.contains name then true
  else
    match rules.reverse.find? (ruleApplies rel fullPath isDir) with
    | some rule => !rule.negate
    | none => false

theorem foldl_if_eq_reverse_find {α : Type} (p : α → Bool) (f : α → Bool)
    (l : List α) (init : Bool) :
    l.foldl (fun acc x => if p x then f x else acc) init =
      ((l.reverse.find? p).map f).getD init := by
  induction l generalizing init with
  | nil => rfl
  | cons x t ih =>
    rw [List.foldl_cons, ih, List.reverse_cons, List.find?_append]
    rcases hf : t.reverse.find? p with _ | y
    · rw [Option.none_or]
      by_cases hp : p x = true
      · rw [if_pos hp]
        simp [List.find?, hp]
      · rw [if_neg hp]
        simp only [Bool.not_eq_true] at hp
        simp [List.find?, hp]
    · rfl

theorem shouldIgnore_body_eq
    (rel : List Nat → List Nat → Option (List Nat))
    (fullPath : List Nat) (isDir : Bool) (acc : Bool) (rule : ignoreRule) :
    (if rule.dirOnly && !isDir then acc
     else
       match rel rule.baseDir fullPath with
       | none => acc
       | some relSlash =>
         if relSlash = [46] ∨ List.isPrefixOf [46, 46, 47] relSlash then acc
         else if ruleMatch rule relSlash then !rule.negate
         else acc) =
      if ruleApplies rel fullPath isDir rule then !rule.negate else acc := by
  unfold ruleApplies
  by_cases h1 : (rule.dirOnly && !isDir) = true
  · rw [if_pos h1, if_pos h1]
    rfl
  · rw [if_neg h1, if_neg h1]
    rcases rel rule.baseDir fullPath with _ | relSlash
    · rfl
    · try dsimp only
      by_cases h2 : relSlash = [46] ∨ List.isPrefixOf [46, 46, 47] relSlash
      · rw [if_pos h2, if_pos h2]
        rfl
      · rw [if_neg h2, if_neg h2]

/-- C5: `shouldIgnorePath` ignores default-ignored directories
unconditionally, and otherwise implements last-match-wins over the
applicable matching rules, defaulting to not ignored. -/
theorem C5_shouldIgnorePath_last_match_wins
    (defaultIgnoreDirs : List (List Nat))
    (rel : List Nat → List Nat → Option (List Nat))
    (rules : List ignoreRule) (fullPath : List Nat) (isDir : Bool) :
    shouldIgnorePath defaultIgnoreDirs rel rules fullPath isDir =
      lastMatchWins defaultIgnoreDirs rel rules fullPath isDir := by
  unfold shouldIgnorePath lastMatchWins
  by_cases hd : (isDir &&
      defaultIgnoreDirs.contains (goToLower (baseName fullPath))) = true
  · rw [if_pos hd, if_pos hd]
  · rw [if_neg hd, if_neg hd]
    have hfe : (fun (ignored : Bool) (rule : ignoreRule) =>
        if rule.dirOnly && !isDir then ignored
        else
          match rel rule.baseDir fullPath with
          | none => ignored
          | some relSlash =>
            if relSlash = [46] ∨ List.isPrefixOf [46, 46, 47] relSlash then
              ignored
            else if ruleMatch rule relSlash then !rule.negate
            else ignored) =
        (fun (acc : Bool) (rule : ignoreRule) =>
          if ruleApplies rel fullPath isDir rule then !rule.negate
          else acc) := by
      funext acc rule
      exact shouldIgnore_body_eq rel fullPath isDir acc rule
    rw [hfe, foldl_if_eq_reverse_find]
    rcases rules.reverse.find? (ruleApplies rel fullPath isDir) with _ | r
    · rfl
    · rfl

/-- C4 (counterexample): with the name-only pattern `b` and the file
`/d/a.txt` next to the ignore file (relative path `a.txt`), the one-rule
lists `{b}` and `{!b}` both answer "not ignored": the verdicts are not
opposite when the rule does not match. -/
theorem C4_no_match_same_verdict :
    shouldIgnorePath [] (fun _ _ => some [97, 46, 116, 120, 116])
        [⟨[47, 100], [98], false, false, false⟩]
        [47, 100, 47, 97, 46, 116, 120, 116] false = false ∧
      shouldIgnorePath [] (fun _ _ => some [97, 46, 116, 120, 116])
        [⟨[47, 100], [98], true, false, false⟩]
        [47, 100, 47, 97, 46, 116, 120, 116] false = false := by
  constructor
  · rfl
  · rfl

/-- C4 (amended): on a file whose relative path resolves and is neither `.`
nor under `..`, the one-rule list `{p}` answers exactly "the rule matches",
while `{!p}` always answers "not ignored"; so the verdicts are opposite
precisely when the rule matches, and agree (both "not ignored") when it
does not. -/
theorem C4_negation_flips_only_on_match
    (defaultIgnoreDirs : List (List Nat))
    (rel : List Nat → List Nat → Option (List Nat))
    (base fullPath p relSlash : List Nat)
    (hrel : rel base fullPath = some relSlash)
    (hdot : ¬(relSlash = [46] ∨ List.isPrefixOf [46, 46, 47] relSlash)) :
    shouldIgnorePath defaultIgnoreDirs rel
        [⟨base, p, false, false, false⟩] fullPath false =
      ruleMatch ⟨base, p, false, false, false⟩ relSlash ∧
    shouldIgnorePath defaultIgnoreDirs rel
        [⟨base, p, true, false, false⟩] fullPath false = false := by
  have key : ∀ rules : List ignoreRule,
      shouldIgnorePath defaultIgnoreDirs rel rules fullPath false =
        ((rules.reverse.find? (ruleApplies rel fullPath false)).map
          (fun r => !r.negate)).getD false := by
    intro rules
    unfold shouldIgnorePath
    rw [if_neg (by simp)]
    have hfe : (fun (ignored : Bool) (rule : ignoreRule) =>
        if rule.dirOnly && !false then ignored
        else
          match rel rule.baseDir fullPath with
          | none => ignored
          | some relSlash =>
            if relSlash = [46] ∨ List.isPrefixOf [46, 46, 47] relSlash then
              ignored
            else if ruleMatch rule relSlash then !rule.negate
            else ignored) =
        (fun (acc : Bool) (rule : ignoreRule) =>
          if ruleApplies rel fullPath false rule then !rule.negate
          else acc) := by
      funext acc rule
      exact shouldIgnore_body_eq rel fullPath false acc rule
    rw [hfe, foldl_if_eq_reverse_find]
  have happ : ∀ ng : Bool,
      ruleApplies rel fullPath false ⟨base, p, ng, false, false⟩ =
        ruleMatch ⟨base, p, ng, false, false⟩ relSlash := by
    intro ng
    unfold ruleApplies
    rw [if_neg (by simp)]
    rw [hrel]
    try dsimp only
    rw [if_neg hdot]
  constructor
  · rw [key]
    cases hm : ruleMatch ⟨base, p, false, false, false⟩ relSlash
    · simp [List.find?, happ false, hm]
    · simp [List.find?, happ false, hm]
  · rw [key]
    cases hm : ruleMatch ⟨base, p, true, false, false⟩ relSlash
    · simp [List.find?, happ true, hm]
    · simp [List.find?, happ true, hm]

/-- Witness for C4 at concrete inputs: the pattern `*` matches the file
`a.txt`, so `{*}` says ignored and `{!*}` says not ignored. -/
theorem C4_negation_flips_only_on_match_witness :
    ((fun (_ _ : List Nat) => some [97, 46, 116, 120, 116]) [47, 100]
        [47, 100, 47, 97, 46, 116, 120, 116] =
      some [97, 46, 116, 120, 116]) ∧
    ¬([97, 46, 116, 120, 116] = [46] ∨
      List.isPrefixOf [46, 46, 47] [97, 46, 116, 120, 116]) ∧
    (shouldIgnorePath [] (fun _ _ => some [97, 46, 116, 120, 116])
        [⟨[47, 100], [42], false, false, false⟩]
        [47, 100, 47, 97, 46, 116, 120, 116] false =
      ruleMatch ⟨[47, 100], [42], false, false, false⟩
        [97, 46, 116, 120, 116] ∧
    shouldIgnorePath [] (fun _ _ => some [97, 46, 116, 120, 116])
        [⟨[47, 100], [42], true, false, false⟩]
        [47, 100, 47, 97, 46, 116, 120, 116] false = false) :=
  ⟨rfl, by decide,
    C4_negation_flips_only_on_match [] (fun _ _ => some [97, 46, 116, 120, 116])
      [47, 100] [47, 100, 47, 97, 46, 116, 120, 116] [42]
      [97, 46, 116, 120, 116] rfl (by decide)⟩

/-- Kind of a non-nil error returned by `walkFiles`: by inspection of
`walkDirectory`, every returned error is `ctx.Err()`, i.e.
`context.Canceled`; `other` exists so that `run`'s guard
`walkErr != nil && !errors.Is(walkErr, context.Canceled)` can be stated. -/
inductive WalkErrKind where
  | canceled : WalkErrKind
  | other : WalkErrKind
deriving DecidableEq, Repr

/-- The exit-code decision of `main.go` `run`, in source order: config parse
error, profiling setup error and strategy build error each exit 2; a
non-canceled walk error exits 2; otherwise the printer's match count decides
between 0 and 1. -/
def runExit (configErr profileErr strategyErr : Bool)
    (walkErr : Option WalkErrKind) (matchCount : Nat) : Nat :=
  if configErr then 2
  else if profileErr then 2
  else if strategyErr then 2
  else if walkErr = some WalkErrKind.other then 2
  else if 0 < matchCount then 0 else 1

/-- C7: with `walkErr` never a non-canceled error (which holds for
`walkDirectory`, whose only returned errors are `ctx.Err()`), and the match
count zero whenever a setup error aborts the run before the printer starts,
the exit code is 0 iff at least one match was counted, 1 iff none was
counted and no setup error occurred, and 2 iff a config/usage error (which
includes a bad root path and profiling setup) or a strategy (regex compile)
error occurred. -/
theorem C7_exit_trichotomy (ce pe se : Bool) (we : Option WalkErrKind)
    (mc : Nat) (hwe : we ≠ some WalkErrKind.other)
    (hmc : (ce = true ∨ pe = true ∨ se = true) → mc = 0) :
    (runExit ce pe se we mc = 0 ↔ 0 < mc) ∧
    (runExit ce pe se we mc = 1 ↔ mc = 0 ∧ ce = false ∧ pe = false ∧
      se = false) ∧
    (runExit ce pe se we mc = 2 ↔ (ce = true ∨ pe = true ∨ se = true)) := by
  cases ce
  · cases pe
    · cases se
      · by_cases hm : 0 < mc
        · simp [runExit, hwe, hm]
          omega
        · simp [runExit, hwe, hm]
          omega
      · have h0 : mc = 0 := hmc (by simp)
        simp [runExit, h0]
    · have h0 : mc = 0 := hmc (by simp)
      simp [runExit, h0]
  · have h0 : mc = 0 := hmc (by simp)
    simp [runExit, h0]

/-- Witness for C7 at a concrete run: no setup error, no walk error, three
matches counted, exit code 0. -/
theorem C7_exit_trichotomy_witness :
    ((none : Option WalkErrKind) ≠ some WalkErrKind.other) ∧
    ((false = true ∨ false = true ∨ false = true) → 3 = 0) ∧
    ((runExit false false false none 3 = 0 ↔ 0 < 3) ∧
      (runExit false false false none 3 = 1 ↔ 3 = 0 ∧ false = false ∧
        false = false ∧ false = false) ∧
      (runExit false false false none 3 = 2 ↔
        (false = true ∨ false = true ∨ false = true))) :=
  ⟨by decide, by simp,
    C7_exit_trichotomy false false false none 3 (by decide) (by simp)⟩

theorem sdiff_card_union_le (n : Nat) (v X : Finset Nat) :
    ((Finset.range n) \ (v ∪ X)).card ≤ ((Finset.range n) \ v).card :=
  Finset.card_le_card
    (Finset.sdiff_subset_sdiff (le_refl _) Finset.subset_union_left)

theorem sdiff_card_insert_lt {n d : Nat} {v : Finset Nat} (hd : d < n)
    (hv : d ∉ v) :
    ((Finset.range n) \ insert d v).card < ((Finset.range n) \ v).card := by
  rw [Finset.sdiff_insert]
  exact Finset.card_erase_lt_of_mem
    (Finset.mem_sdiff.mpr ⟨Finset.mem_range.mpr hd, hv⟩)

/-- Resolved target of a symlink, as `os.Stat` reports it. -/
inductive SymTarget where
  | file : SymTarget
  | dir : Nat → SymTarget
deriving DecidableEq, Repr

/-- One directory entry of the modelled file system.  A `symlink none`
models a symlink whose `os.Stat` (or, for directories,
`filepath.EvalSymlinks`) fails — `walkDirectory` skips it either way. -/
inductive EntryKind where
  | file : EntryKind
  | dir : Nat → EntryKind
  | symlink : Option SymTarget → EntryKind
deriving DecidableEq, Repr

structure FSEntry where
  name : List Nat
  kind : EntryKind
deriving DecidableEq, Repr

/-- Finite file-system model for `walkDirectory`: real directories are
numbered below `dirs` and form an acyclic graph (witnessed by `height`,
since real directory trees on disk are acyclic), while symlinks may target
any directory — including an ancestor, producing a cycle.  `visited` keys
(Go: the `EvalSymlinks`-resolved path) are the target directory numbers. -/
structure FS where
  dirs : Nat
  entries : Nat → List FSEntry
  height : Nat → Nat
  dir_height : ∀ d e d', e ∈ entries d → e.kind = EntryKind.dir d' →
    height d' < height d
  sym_lt : ∀ d e d', e ∈ entries d →
    e.kind = EntryKind.symlink (some (SymTarget.dir d')) → d' < dirs

/-- The `cfg.maxDepth >= 0 && depth > cfg.maxDepth` guard of
`walkDirectory`, as "may the walk continue at this depth". -/
def underLimit (maxDepth : Option Nat) (depth : Nat) : Bool :=
  match maxDepth with
  | none => true
  | some m => decide (depth ≤ m)

/-- The entry loop of `main.go` `walkDirectory` with `followSymlinks`
enabled, over the model `fs`.  `ignoreP` stands for `shouldIgnorePath`
(a function of the walked path and the directory flag), `blocked` for
membership of the lowercased entry name in `cfg.defaultIgnoreDirs`, and
`fileSkip` for the extension and size filters on files.  The callee's
depth check is inlined at each recursive call, and the second
`shouldIgnorePath` call for file-targeted symlinks (same arguments, pure)
appears once.  Returns the published paths in order and the final visited
set; the well-founded definition itself is the termination argument, also
in the presence of symlink cycles. -/
def walkEntries (fs : FS) (ignoreP : List Nat → Bool → Bool)
    (blocked fileSkip : List Nat → Bool) (maxDepth : Option Nat)
    (cur : List Nat) (d : Nat) (rest : List FSEntry)
    (hrest : rest <:+ fs.entries d) (depth : Nat) (visited : Finset Nat) :
    List (List Nat) × Finset Nat :=
  match rest, hrest with
  | [], _ => ([], visited)
  | e :: rest2, hrest =>
    let tail := List.IsSuffix.trans (List.suffix_cons e rest2) hrest
    let fullPath := cur ++ [47] ++ e.name
    match hk : e.kind with
    | EntryKind.file =>
      if ignoreP fullPath false then
        walkEntries fs ignoreP blocked fileSkip maxDepth cur d rest2 tail
          depth visited
      else if fileSkip fullPath then
        walkEntries fs ignoreP blocked fileSkip maxDepth cur d rest2 tail
          depth visited
      else
        let r := walkEntries fs ignoreP blocked fileSkip maxDepth cur d
          rest2 tail depth visited
        (fullPath :: r.1, r.2)
    | EntryKind.dir d2 =>
      if ignoreP fullPath true then
        walkEntries fs ignoreP blocked fileSkip maxDepth cur d rest2 tail
          depth visited
      else if blocked (goToLower e.name) then
        walkEntries fs ignoreP blocked fileSkip maxDepth cur d rest2 tail
          depth visited
      else
        let sub :=
          if underLimit maxDepth (depth + 1) then
            walkEntries fs ignoreP blocked fileSkip maxDepth fullPath d2
              (fs.entries d2) (List.suffix_refl _) (depth + 1) visited
          else ([], visited)
        let r := walkEntries fs ignoreP blocked fileSkip maxDepth cur d
          rest2 tail depth (visited ∪ sub.2)
        (sub.1 ++ r.1, r.2)
    | EntryKind.symlink none =>
      walkEntries fs ignoreP blocked fileSkip maxDepth cur d rest2 tail
        depth visited
    | EntryKind.symlink (some SymTarget.file) =>
      if ignoreP fullPath false then
        walkEntries fs ignoreP blocked fileSkip maxDepth cur d rest2 tail
          depth visited
      else if fileSkip fullPath then
        walkEntries fs ignoreP blocked fileSkip maxDepth cur d rest2 tail
          depth visited
      else
        let r := walkEntries fs ignoreP blocked fileSkip maxDepth cur d
          rest2 tail depth visited
        (fullPath :: r.1, r.2)
    | EntryKind.symlink (some (SymTarget.dir d2)) =>
      if ignoreP fullPath false then
        walkEntries fs ignoreP blocked fileSkip maxDepth cur d rest2 tail
          depth visited
      else if ignoreP fullPath true then
        walkEntries fs ignoreP blocked fileSkip maxDepth cur d rest2 tail
          depth visited
      else if blocked (goToLower e.name) then
        walkEntries fs ignoreP blocked fileSkip maxDepth cur d rest2 tail
          depth visited
      else if hvis : d2 ∈ visited then
        walkEntries fs ignoreP blocked fileSkip maxDepth cur d rest2 tail
          depth visited
      else
        let sub :=
          if underLimit maxDepth (depth + 1) then
            walkEntries fs ignoreP blocked fileSkip maxDepth fullPath d2
              (fs.entries d2) (List.suffix_refl _) (depth + 1)
              (insert d2 visited)
          else ([], insert d2 visited)
        let r := walkEntries fs ignoreP blocked fileSkip maxDepth cur d
          rest2 tail depth (visited ∪ sub.2)
        (sub.1 ++ r.1, r.2)
termination_by
  ((Finset.range fs.dirs \ visited).card, fs.height d, rest.length)
decreasing_by
  all_goals simp_wf
  all_goals
    first
    | (apply Prod.Lex.right
       apply Prod.Lex.right
       simp)
    | (apply Prod.Lex.right
       apply Prod.Lex.left
       exact fs.dir_height d e _ (hrest.subset (List.mem_cons_self _ _)) hk)
    | (apply Prod.Lex.left
       exact sdiff_card_insert_lt
         (fs.sym_lt d e _ (hrest.subset (List.mem_cons_self _ _)) hk) hvis)
    | (rcases lt_or_eq_of_le (sdiff_card_union_le fs.dirs visited _) with
        hlt | heq
       · exact Prod.Lex.left _ _ hlt
       · rw [heq]
         apply Prod.Lex.right
         apply Prod.Lex.right
         simp)

/-- `main.go` `walkDirectory` entry point: depth guard, then the entry
loop over the directory's entries. -/
def walkDirectory (fs : FS) (ignoreP : List Nat → Bool → Bool)
    (blocked fileSkip : List Nat → Bool) (maxDepth : Option Nat)
    (cur : List Nat) (d : Nat) (depth : Nat) (visited : Finset Nat) :
    List (List Nat) × Finset Nat :=
  if underLimit maxDepth depth then
    walkEntries fs ignoreP blocked fileSkip maxDepth cur d (fs.entries d)
      (List.suffix_refl _) depth visited
  else ([], visited)

/-- `main.go` `walkFiles` with `followSymlinks` enabled: the resolved root
is pre-seeded into `visited`, then the walk starts at the root with depth
0; the result is the list of paths sent to the path channel, in order. -/
def walkFiles (fs : FS) (ignoreP : List Nat → Bool → Bool)
    (blocked fileSkip : List Nat → Bool) (maxDepth : Option Nat)
    (root : List Nat) (rootId : Nat) : List (List Nat) :=
  (walkDirectory fs ignoreP blocked fileSkip maxDepth root rootId 0
    {rootId}).1

/-- First path segment after the prefix `cur ++ [47]`. -/
def firstSeg (cur p : List Nat) : List Nat :=
  (p.drop (cur.length + 1)).takeWhile (fun c => decide (c ≠ 47))

theorem takeWhile_seg {n tail : List Nat} (hn : 47 ∉ n)
    (ht : tail = [] ∨ ∃ t', tail = 47 :: t') :
    (n ++ tail).takeWhile (fun c => decide (c ≠ 47)) = n := by
  induction n with
  | nil =>
    rcases ht with rfl | ⟨t', rfl⟩
    · rfl
    · simp [List.takeWhile_cons]
  | cons a n' ih =>
    rw [List.cons_append, List.takeWhile_cons,
      if_pos (by
        simp only [decide_eq_true_eq]
        exact fun h => hn (h ▸ List.mem_cons_self a n')),
      ih (fun h => hn (List.mem_cons_of_mem _ h))]

theorem firstSeg_spec {cur n tail : List Nat} (hn : 47 ∉ n)
    (ht : tail = [] ∨ ∃ t', tail = 47 :: t') :
    firstSeg cur (cur ++ [47] ++ n ++ tail) = n := by
  unfold firstSeg
  rw [show cur ++ [47] ++ n ++ tail = (cur ++ [47]) ++ (n ++ tail) by
      simp [List.append_assoc],
    show cur.length + 1 = (cur ++ [47]).length by simp,
    List.drop_left, takeWhile_seg hn ht]

theorem firstSeg_of_shape {cur n p : List Nat} (hn : 47 ∉ n)
    (h : p = cur ++ [47] ++ n ∨ (cur ++ [47] ++ n ++ [47]) <+: p) :
    firstSeg cur p = n := by
  rcases h with rfl | ⟨t, ht⟩
  · have h2 : cur ++ [47] ++ n = cur ++ [47] ++ n ++ [] := by simp
    rw [h2, firstSeg_spec hn (Or.inl rfl)]
  · rw [← ht,
      show cur ++ [47] ++ n ++ [47] ++ t = cur ++ [47] ++ n ++ (47 :: t) by
        simp [List.append_assoc],
      firstSeg_spec hn (Or.inr ⟨t, rfl⟩)]

theorem shape_ne {cur p q n1 n2 : List Nat} (h1 : 47 ∉ n1) (h2 : 47 ∉ n2)
    (hne : n1 ≠ n2)
    (hp : p = cur ++ [47] ++ n1 ∨ (cur ++ [47] ++ n1 ++ [47]) <+: p)
    (hq : q = cur ++ [47] ++ n2 ∨ (cur ++ [47] ++ n2 ++ [47]) <+: q) :
    p ≠ q := by
  intro hpq
  apply hne
  rw [← firstSeg_of_shape h1 hp, ← firstSeg_of_shape h2 hq, hpq]

theorem walkEntries_good (fs : FS) (ignoreP : List Nat → Bool → Bool)
    (blocked fileSkip : List Nat → Bool) (maxDepth : Option Nat)
    (hnames : ∀ d, ((fs.entries d).map FSEntry.name).Nodup)
    (hslash : ∀ d e, e ∈ fs.entries d → 47 ∉ e.name) :
    ∀ (U H : Nat) (d : Nat) (rest : List FSEntry)
      (hrest : rest <:+ fs.entries d) (cur : List Nat) (depth : Nat)
      (visited : Finset Nat),
      ((Finset.range fs.dirs) \ visited).card ≤ U → fs.height d ≤ H →
      (∀ p ∈ (walkEntries fs ignoreP blocked fileSkip maxDepth cur d rest
          hrest depth visited).1,
        ∃ e ∈ rest, p = cur ++ [47] ++ e.name ∨
          (cur ++ [47] ++ e.name ++ [47]) <+: p) ∧
      (walkEntries fs ignoreP blocked fileSkip maxDepth cur d rest hrest
        depth visited).1.Nodup := by
  intro U
  induction U using Nat.strong_induction_on with
  | _ U ihU =>
  intro H
  induction H using Nat.strong_induction_on with
  | _ H ihH =>
  intro d rest
  induction rest with
  | nil =>
    intro hrest cur depth visited hu hh
    simp only [walkEntries]
    exact ⟨by simp, List.nodup_nil⟩
  | cons e rest2 ihrest =>
    intro hrest cur depth visited hu hh
    obtain ⟨nm, k⟩ := e
    have htail : rest2 <:+ fs.entries d :=
      List.IsSuffix.trans (List.suffix_cons _ _) hrest
    have hmem : (⟨nm, k⟩ : FSEntry) ∈ fs.entries d :=
      hrest.subset (List.mem_cons_self _ _)
    have hnm : 47 ∉ nm := hslash d _ hmem
    have hnames2 : nm ∉ rest2.map FSEntry.name := by
      have hsub : List.Sublist ((⟨nm, k⟩ :: rest2).map FSEntry.name)
          ((fs.entries d).map FSEntry.name) :=
        List.Sublist.map _ hrest.sublist
      have hnd := (hnames d).sublist hsub
      rw [List.map_cons] at hnd
      exact (List.nodup_cons.mp hnd).1
    have weaken : ∀ {L : List (List Nat)},
        (∀ p ∈ L, ∃ e2 ∈ rest2, p = cur ++ [47] ++ e2.name ∨
          (cur ++ [47] ++ e2.name ++ [47]) <+: p) →
        ∀ p ∈ L, ∃ e2 ∈ ((⟨nm, k⟩ : FSEntry) :: rest2),
          p = cur ++ [47] ++ e2.name ∨
            (cur ++ [47] ++ e2.name ++ [47]) <+: p := by
      intro L hL p hp
      obtain ⟨e2, he2, hs⟩ := hL p hp
      exact ⟨e2, List.mem_cons_of_mem _ he2, hs⟩
    have tailGood := ihrest htail cur depth visited hu hh
    have subPrefix : ∀ (dx : Nat) (p : List Nat),
        (∃ e2 ∈ fs.entries dx, p = (cur ++ [47] ++ nm) ++ [47] ++ e2.name ∨
          ((cur ++ [47] ++ nm) ++ [47] ++ e2.name ++ [47]) <+: p) →
        (cur ++ [47] ++ nm ++ [47]) <+: p := by
      intro dx p hs
      obtain ⟨e2, he2, hs⟩ := hs
      rcases hs with rfl | hpre
      · exact ⟨e2.name, rfl⟩
      · exact List.IsPrefix.trans
          ⟨e2.name ++ [47], by simp [List.append_assoc]⟩ hpre
    cases k with
    | file =>
      simp only [walkEntries]
      by_cases h1 : ignoreP (cur ++ [47] ++ nm) false = true
      · rw [if_pos h1]
        exact ⟨weaken tailGood.1, tailGood.2⟩
      · rw [if_neg h1]
        by_cases h2 : fileSkip (cur ++ [47] ++ nm) = true
        · rw [if_pos h2]
          exact ⟨weaken tailGood.1, tailGood.2⟩
        · rw [if_neg h2]
          try dsimp only
          constructor
          · intro p hp
            rcases List.mem_cons.mp hp with rfl | hp
            · exact ⟨⟨nm, EntryKind.file⟩, List.mem_cons_self _ _,
                Or.inl rfl⟩
            · exact weaken tailGood.1 p hp
          · rw [List.nodup_cons]
            refine ⟨?_, tailGood.2⟩
            intro hmem2
            obtain ⟨e2, he2, hs⟩ := tailGood.1 _ hmem2
            exact shape_ne hnm (hslash d _ (htail.subset he2))
              (fun heq => hnames2
                (by rw [heq]; exact List.mem_map_of_mem _ he2))
              (Or.inl rfl) hs rfl
    | dir d2 =>
      have hheight : fs.height d2 < fs.height d :=
        fs.dir_height d _ d2 hmem rfl
      simp only [walkEntries]
      by_cases h1 : ignoreP (cur ++ [47] ++ nm) true = true
      · rw [if_pos h1]
        exact ⟨weaken tailGood.1, tailGood.2⟩
      · rw [if_neg h1]
        by_cases h2 : blocked (goToLower nm) = true
        · rw [if_pos h2]
          exact ⟨weaken tailGood.1, tailGood.2⟩
        · rw [if_neg h2]
          by_cases h3 : underLimit maxDepth (depth + 1) = true
          · rw [if_pos h3]
            try dsimp only
            have subGood := ihH (fs.height d2) (lt_of_lt_of_le hheight hh)
              d2 (fs.entries d2) (List.suffix_refl _) (cur ++ [47] ++ nm)
              (depth + 1) visited hu (le_refl _)
            have contGood := ihrest htail cur depth
              (visited ∪ (walkEntries fs ignoreP blocked fileSkip maxDepth
                (cur ++ [47] ++ nm) d2 (fs.entries d2) (List.suffix_refl _)
                (depth + 1) visited).2)
              (le_trans (sdiff_card_union_le _ _ _) hu) hh
            constructor
            · intro p hp
              rcases List.mem_append.mp hp with hp | hp
              · exact ⟨⟨nm, EntryKind.dir d2⟩, List.mem_cons_self _ _,
                  Or.inr (subPrefix _ p (subGood.1 p hp))⟩
              · exact weaken contGood.1 p hp
            · refine List.Nodup.append subGood.2 contGood.2 ?_
              intro p hp hq
              obtain ⟨e3, he3, ht3⟩ := contGood.1 p hq
              exact shape_ne hnm (hslash d _ (htail.subset he3))
                (fun heq => hnames2
                  (by rw [heq]; exact List.mem_map_of_mem _ he3))
                (Or.inr (subPrefix _ p (subGood.1 p hp))) ht3 rfl
          · rw [if_neg h3]
            try dsimp only
            simp only [List.nil_append, Finset.union_self]
            have contGood := ihrest htail cur depth visited hu hh
            exact ⟨weaken contGood.1, contGood.2⟩
    | symlink starget =>
      match starget with
      | none =>
        simp only [walkEntries]
        exact ⟨weaken tailGood.1, tailGood.2⟩
      | some SymTarget.file =>
        simp only [walkEntries]
        by_cases h1 : ignoreP (cur ++ [47] ++ nm) false = true
        · rw [if_pos h1]
          exact ⟨weaken tailGood.1, tailGood.2⟩
        · rw [if_neg h1]
          by_cases h2 : fileSkip (cur ++ [47] ++ nm) = true
          · rw [if_pos h2]
            exact ⟨weaken tailGood.1, tailGood.2⟩
          · rw [if_neg h2]
            try dsimp only
            constructor
            · intro p hp
              rcases List.mem_cons.mp hp with rfl | hp
              · exact ⟨⟨nm, EntryKind.symlink (some SymTarget.file)⟩,
                  List.mem_cons_self _ _, Or.inl rfl⟩
              · exact weaken tailGood.1 p hp
            · rw [List.nodup_cons]
              refine ⟨?_, tailGood.2⟩
              intro hmem2
              obtain ⟨e2, he2, hs⟩ := tailGood.1 _ hmem2
              exact shape_ne hnm (hslash d _ (htail.subset he2))
                (fun heq => hnames2
                  (by rw [heq]; exact List.mem_map_of_mem _ he2))
                (Or.inl rfl) hs rfl
      | some (SymTarget.dir d2) =>
        have hd2 : d2 < fs.dirs := fs.sym_lt d _ d2 hmem rfl
        simp only [walkEntries]
        by_cases h1 : ignoreP (cur ++ [47] ++ nm) false = true
        · rw [if_pos h1]
          exact ⟨weaken tailGood.1, tailGood.2⟩
        · rw [if_neg h1]
          by_cases h2 : ignoreP (cur ++ [47] ++ nm) true = true
          · rw [if_pos h2]
            exact ⟨weaken tailGood.1, tailGood.2⟩
          · rw [if_neg h2]
            by_cases h3 : blocked (goToLower nm) = true
            · rw [if_pos h3]
              exact ⟨weaken tailGood.1, tailGood.2⟩
            · rw [if_neg h3]
              by_cases hvis : d2 ∈ visited
              · rw [dif_pos hvis]
                exact ⟨weaken tailGood.1, tailGood.2⟩
              · rw [dif_neg hvis]
                by_cases h4 : underLimit maxDepth (depth + 1) = true
                · rw [if_pos h4]
                  try dsimp only
                  have hult := sdiff_card_insert_lt hd2 hvis
                  have subGood := ihU
                    ((Finset.range fs.dirs \ insert d2 visited).card)
                    (lt_of_lt_of_le hult hu) (fs.height d2) d2
                    (fs.entries d2) (List.suffix_refl _)
                    (cur ++ [47] ++ nm) (depth + 1) (insert d2 visited)
                    (le_refl _) (le_refl _)
                  have contGood := ihrest htail cur depth
                    (visited ∪ (walkEntries fs ignoreP blocked fileSkip
                      maxDepth (cur ++ [47] ++ nm) d2 (fs.entries d2)
                      (List.suffix_refl _) (depth + 1)
                      (insert d2 visited)).2)
                    (le_trans (sdiff_card_union_le _ _ _) hu) hh
                  constructor
                  · intro p hp
                    rcases List.mem_append.mp hp with hp | hp
                    · exact ⟨⟨nm, EntryKind.symlink (some (SymTarget.dir
                        d2))⟩, List.mem_cons_self _ _,
                        Or.inr (subPrefix _ p (subGood.1 p hp))⟩
                    · exact weaken contGood.1 p hp
                  · refine List.Nodup.append subGood.2 contGood.2 ?_
                    intro p hp hq
                    obtain ⟨e3, he3, ht3⟩ := contGood.1 p hq
                    exact shape_ne hnm (hslash d _ (htail.subset he3))
                      (fun heq => hnames2
                        (by rw [heq]; exact List.mem_map_of_mem _ he3))
                      (Or.inr (subPrefix _ p (subGood.1 p hp))) ht3 rfl
                · rw [if_neg h4]
                  try dsimp only
                  simp only [List.nil_append]
                  have contGood := ihrest htail cur depth
                    (visited ∪ insert d2 visited)
                    (le_trans (sdiff_card_union_le _ _ _) hu) hh
                  exact ⟨weaken contGood.1, contGood.2⟩

/-- C6: with follow-symlinks enabled (the resolved root pre-seeded in the
visited set), the walk is a total function — the well-founded definition of
`walkEntries` is the termination argument, valid also on trees with symlink
cycles — and the list of paths it publishes to the path channel has no
duplicates: each path is published at most once. -/
theorem C6_walk_terminates_and_publishes_once (fs : FS)
    (ignoreP : List Nat → Bool → Bool) (blocked fileSkip : List Nat → Bool)
    (maxDepth : Option Nat) (root : List Nat) (rootId : Nat)
    (hnames : ∀ d, ((fs.entries d).map FSEntry.name).Nodup)
    (hslash : ∀ d e, e ∈ fs.entries d → 47 ∉ e.name) :
    (walkFiles fs ignoreP blocked fileSkip maxDepth root rootId).Nodup := by
  unfold walkFiles walkDirectory
  by_cases h : underLimit maxDepth 0 = true
  · rw [if_pos h]
    exact (walkEntries_good fs ignoreP blocked fileSkip maxDepth hnames
      hslash ((Finset.range fs.dirs \ {rootId}).card) (fs.height rootId)
      rootId (fs.entries rootId) (List.suffix_refl _) root 0 {rootId}
      (le_refl _) (le_refl _)).2
  · rw [if_neg h]
    exact List.nodup_nil

/-- A one-directory file system whose root contains the file `a.txt` and a
symlink `loop` resolving back to the root itself: a symlink cycle. -/
def cycleFS : FS where
  dirs := 1
  entries := fun d =>
    if d = 0 then
      [⟨[97, 46, 116, 120, 116], EntryKind.file⟩,
        ⟨[108, 111, 111, 112], EntryKind.symlink (some (SymTarget.dir 0))⟩]
    else []
  height := fun _ => 0
  dir_height := by
    intro d e d' he hk
    by_cases h : d = 0
    · subst h
      simp only [if_pos rfl] at he
      rcases List.mem_cons.mp he with rfl | he
      · exact absurd hk (by simp)
      · rw [List.mem_singleton] at he
        subst he
        exact absurd hk (by simp)
    · simp only [if_neg h] at he
      exact absurd he (by simp)
  sym_lt := by
    intro d e d' he hk
    by_cases h : d = 0
    · subst h
      simp only [if_pos rfl] at he
      rcases List.mem_cons.mp he with rfl | he
      · exact absurd hk (by simp)
      · rw [List.mem_singleton] at he
        subst he
        simp only [EntryKind.symlink.injEq, Option.some.injEq,
          SymTarget.dir.injEq] at hk
        omega
    · simp only [if_neg h] at he
      exact absurd he (by simp)

/-- Witness for C6: walking `cycleFS` from its root (path `r`) with no
filters publishes each path at most once, and the traversal is the value of
a total function. -/
theorem C6_walk_terminates_and_publishes_once_witness :
    (∀ d, ((cycleFS.entries d).map FSEntry.name).Nodup) ∧
    (∀ d e, e ∈ cycleFS.entries d → 47 ∉ e.name) ∧
    (walkFiles cycleFS (fun _ _ => false) (fun _ => false) (fun _ => false)
      none [114] 0).Nodup := by
  have h1 : ∀ d, ((cycleFS.entries d).map FSEntry.name).Nodup := by
    intro d
    by_cases h : d = 0
    · subst h
      decide
    · simp [cycleFS, h]
  have h2 : ∀ d e, e ∈ cycleFS.entries d → 47 ∉ e.name := by
    intro d e he
    by_cases h : d = 0
    · subst h
      rcases List.mem_cons.mp he with rfl | he
      · decide
      · rw [List.mem_singleton] at he
        subst he
        decide
    · simp [cycleFS, h] at he
  exact ⟨h1, h2, C6_walk_terminates_and_publishes_once cycleFS
    (fun _ _ => false) (fun _ => false) (fun _ => false) none [114] 0
    h1 h2⟩
